import Mathlib

/-!
Verification of the dbex LSM storage engine against its specification.

The development shallowly embeds the Rust sources:
  * `src/memtable.rs`   — `MemTable` over a `BTreeMap<Vec<u8>, Option<Vec<u8>>>`,
    modelled as a strictly-sorted association list;
  * `src/ss_table.rs`   — `SSTable` construction (`load_from_memtable`,
    `write_entry`, `write_index`) and the read path (`get`,
    `get_from_index_file`, `get_next_key_in_index_file`,
    `read_value_at_offset`), modelled down to the on-disk byte streams;
  * the engine (`insert`/`remove`/`find`/`flush`) referenced by the test suite
    is not present in the sources, so it is modelled from the specification
    (marked `Modelled from the spec:` below).

Byte strings (`Vec<u8>`) are modelled as `List Nat`; the Rust ordering on
`Vec<u8>` is lexicographic on bytes, which is exactly Mathlib's lexicographic
linear order on lists.  Partial (panicking) Rust functions are embedded as
`Option`-valued functions where `none` models a panic.
-/

/-- Byte strings: model of Rust `Vec<u8>`.  Ordered lexicographically. -/
abbrev Bytes := List Nat

/-- Model of `BTreeMap::get` on the sorted association list: returns the
binding of `k`, if any. -/
def btFind (k : Bytes) : List (Bytes × Option Bytes) → Option (Option Bytes)
  | [] => none
  | (k1, v1) :: rest => if k1 = k then some v1 else btFind k rest

/-- Model of `BTreeMap::insert`: insert or replace the binding of `k`,
keeping the list sorted by key. -/
def btInsert (k : Bytes) (v : Option Bytes) :
    List (Bytes × Option Bytes) → List (Bytes × Option Bytes)
  | [] => [(k, v)]
  | (k1, v1) :: rest =>
    if k < k1 then (k, v) :: (k1, v1) :: rest
    else if k = k1 then (k, v) :: rest
    else (k1, v1) :: btInsert k v rest

/-- Keys appear in strictly ascending order (the `BTreeMap` invariant). -/
def SortedKeys (l : List (Bytes × Option Bytes)) : Prop :=
  l.Pairwise (fun a b => a.1 < b.1)

/-- Model of `MemTable` from `src/memtable.rs`: the `BTreeMap` as a sorted
association list plus the `size_bytes` accountant. -/
structure MemTable where
  data : List (Bytes × Option Bytes)
  size_bytes : Nat
  deriving Repr, DecidableEq

namespace MemTable

/-- `MemTable::new`. -/
def new : MemTable := { data := [], size_bytes := 0 }

/-- `MemTable::insert`: subtract the old present value's contribution if one
exists, add the new contribution, store `Some(value)`. -/
def insert (m : MemTable) (key value : Bytes) : MemTable :=
  let sub : Nat :=
    match btFind key m.data with
    | some (some old_value) => key.length + old_value.length
    | _ => 0
  { data := btInsert key (some value) m.data
    size_bytes := m.size_bytes - sub + (key.length + value.length) }

/-- `MemTable::get`: `Some(v)` only for present entries. -/
def get (m : MemTable) (key : Bytes) : Option Bytes :=
  match btFind key m.data with
  | some (some value) => some value
  | _ => none

/-- `MemTable::remove`: unconditionally store a tombstone; the accountant is
not adjusted. -/
def remove (m : MemTable) (key : Bytes) : MemTable :=
  { m with data := btInsert key none m.data }

/-- `MemTable::len`: number of bindings, tombstones included. -/
def len (m : MemTable) : Nat := m.data.length

/-- `MemTable::size_byte`. -/
def size_byte (m : MemTable) : Nat := m.size_bytes

end MemTable

/-- Sum of `|k| + |v|` over the entries presently bound to `Some v`. -/
def presentSize : List (Bytes × Option Bytes) → Nat
  | [] => 0
  | (k, some v) :: rest => k.length + v.length + presentSize rest
  | (_, none) :: rest => presentSize rest

/-- A mutation applied to the memtable by the engine write path. -/
inductive MemOp where
  | ins : Bytes → Bytes → MemOp
  | rem : Bytes → MemOp
  deriving Repr, DecidableEq

/-- Apply one mutation. -/
def applyMemOp (m : MemTable) : MemOp → MemTable
  | .ins k v => m.insert k v
  | .rem k => m.remove k

/-- Run a mutation sequence from the empty memtable. -/
def applyMemOps (ops : List MemOp) : MemTable :=
  ops.foldl applyMemOp MemTable.new

/-- Bytes leaked by the accountant: each `remove` that hits a presently
present value leaves its `|k| + |v|` contribution in `size_bytes` forever. -/
def leakAux (m : MemTable) : List MemOp → Nat
  | [] => 0
  | op :: rest =>
    (match op with
     | .rem k =>
       match btFind k m.data with
       | some (some old) => k.length + old.length
       | _ => 0
     | .ins _ _ => 0) + leakAux (applyMemOp m op) rest

/-- Total leak of a mutation sequence started from the empty memtable. -/
def leakOf (ops : List MemOp) : Nat := leakAux MemTable.new ops

section BtreeLemmas

theorem btFind_btInsert_self (k : Bytes) (v : Option Bytes)
    (l : List (Bytes × Option Bytes)) : btFind k (btInsert k v l) = some v := by
  induction l with
  | nil => simp [btInsert, btFind]
  | cons hd tl ih =>
    obtain ⟨k1, v1⟩ := hd
    by_cases h1 : k < k1
    · simp [btInsert, btFind, h1]
    · by_cases h2 : k = k1
      · simp [btInsert, btFind, h1, h2]
      · have h3 : k1 ≠ k := fun h => h2 h.symm
        simp [btInsert, btFind, h1, h2, h3, ih]

theorem btFind_btInsert_ne (k k1 : Bytes) (v : Option Bytes)
    (l : List (Bytes × Option Bytes)) (h : k ≠ k1) :
    btFind k1 (btInsert k v l) = btFind k1 l := by
  induction l with
  | nil => simp [btInsert, btFind, h]
  | cons hd tl ih =>
    obtain ⟨k2, v2⟩ := hd
    by_cases h1 : k < k2
    · simp [btInsert, btFind, h1, h]
    · by_cases h2 : k = k2
      · subst h2
        simp [btInsert, btFind, h1, h]
      · simp only [btInsert, if_neg h1, if_neg h2]
        by_cases h3 : k2 = k1
        · simp [btFind, h3]
        · simp [btFind, h3, ih]

theorem btFind_eq_none_of_forall_ne (k : Bytes)
    (l : List (Bytes × Option Bytes)) (h : ∀ p ∈ l, p.1 ≠ k) :
    btFind k l = none := by
  induction l with
  | nil => rfl
  | cons hd tl ih =>
    have h1 : hd.1 ≠ k := h hd (List.mem_cons_self hd tl)
    obtain ⟨k1, v1⟩ := hd
    simp only [btFind, if_neg h1]
    exact ih fun p hp => h p (List.mem_cons_of_mem _ hp)

theorem mem_of_btFind_eq_some (k : Bytes) (v : Option Bytes)
    (l : List (Bytes × Option Bytes)) (h : btFind k l = some v) : (k, v) ∈ l := by
  induction l with
  | nil => simp [btFind] at h
  | cons hd tl ih =>
    obtain ⟨k1, v1⟩ := hd
    by_cases h1 : k1 = k
    · subst h1
      simp [btFind] at h
      subst h
      exact List.mem_cons_self _ _
    · simp only [btFind, if_neg h1] at h
      exact List.mem_cons_of_mem _ (ih h)

theorem mem_btInsert (k : Bytes) (v : Option Bytes) (p : Bytes × Option Bytes)
    (l : List (Bytes × Option Bytes)) (hp : p ∈ btInsert k v l) :
    p = (k, v) ∨ p ∈ l := by
  induction l with
  | nil =>
    simp [btInsert] at hp
    left; exact hp
  | cons hd tl ih =>
    obtain ⟨k1, v1⟩ := hd
    by_cases h1 : k < k1
    · simp only [btInsert, if_pos h1] at hp
      rcases List.mem_cons.mp hp with h | h
      · left; exact h
      · right; exact h
    · by_cases h2 : k = k1
      · simp only [btInsert, if_neg h1, if_pos h2] at hp
        rcases List.mem_cons.mp hp with h | h
        · left; exact h
        · right; exact List.mem_cons_of_mem _ h
      · simp only [btInsert, if_neg h1, if_neg h2] at hp
        rcases List.mem_cons.mp hp with h | h
        · right; rw [h]; exact List.mem_cons_self _ _
        · rcases ih h with h5 | h5
          · left; exact h5
          · right; exact List.mem_cons_of_mem _ h5

theorem sortedKeys_btInsert (k : Bytes) (v : Option Bytes)
    (l : List (Bytes × Option Bytes)) (hs : SortedKeys l) :
    SortedKeys (btInsert k v l) := by
  induction l with
  | nil => simp [btInsert, SortedKeys]
  | cons hd tl ih =>
    obtain ⟨k1, v1⟩ := hd
    have hs1 : SortedKeys tl := (List.pairwise_cons.mp hs).2
    have hhd : ∀ p ∈ tl, k1 < p.1 := by
      intro p hp
      exact (List.pairwise_cons.mp hs).1 p hp
    by_cases h1 : k < k1
    · simp only [btInsert, if_pos h1]
      refine List.pairwise_cons.mpr ⟨?_, hs⟩
      intro p hp
      rcases List.mem_cons.mp hp with h | h
      · subst h; exact h1
      · exact lt_trans h1 (hhd p h)
    · by_cases h2 : k = k1
      · subst h2
        simp only [btInsert, if_neg h1, if_pos rfl]
        exact List.pairwise_cons.mpr ⟨hhd, hs1⟩
      · simp only [btInsert, if_neg h1, if_neg h2]
        refine List.pairwise_cons.mpr ⟨?_, ih hs1⟩
        intro p hp
        have hk1k : k1 < k := by
          rcases lt_trichotomy k k1 with h | h | h
          · exact absurd h h1
          · exact absurd h h2
          · exact h
        rcases mem_btInsert k v p tl hp with h | h
        · rw [h]; exact hk1k
        · exact hhd p h

end BtreeLemmas

/-- Contribution of the currently bound present value of `k`, the amount
`MemTable::insert` subtracts before re-adding (`0` when `k` is absent or
tombstoned). -/
def oldContribution (k : Bytes) (l : List (Bytes × Option Bytes)) : Nat :=
  match btFind k l with
  | some (some old) => k.length + old.length
  | _ => 0

section PresentSizeLemmas

theorem presentSize_ge_of_mem (k v : Bytes) (l : List (Bytes × Option Bytes))
    (h : (k, some v) ∈ l) : k.length + v.length ≤ presentSize l := by
  induction l with
  | nil => simp at h
  | cons hd tl ih =>
    rcases List.mem_cons.mp h with h1 | h1
    · rw [← h1]
      simp [presentSize]
    · obtain ⟨k1, v1⟩ := hd
      cases v1 with
      | some w =>
        simp only [presentSize]
        have := ih h1
        omega
      | none =>
        simp only [presentSize]
        exact ih h1

theorem oldContribution_le_presentSize (k : Bytes)
    (l : List (Bytes × Option Bytes)) : oldContribution k l ≤ presentSize l := by
  unfold oldContribution
  cases hf : btFind k l with
  | none => simp
  | some v =>
    cases v with
    | none => simp
    | some old => exact presentSize_ge_of_mem k old l (mem_of_btFind_eq_some k _ l hf)

theorem btFind_eq_none_of_lt_all (k : Bytes) (l : List (Bytes × Option Bytes))
    (h : ∀ p ∈ l, k < p.1) : btFind k l = none :=
  btFind_eq_none_of_forall_ne k l fun p hp => fun he => absurd he.symm (ne_of_lt (h p hp))

theorem presentSize_btInsert (k : Bytes) (v : Option Bytes)
    (l : List (Bytes × Option Bytes)) (hs : SortedKeys l) :
    presentSize (btInsert k v l) + oldContribution k l
      = presentSize l + (match v with | some w => k.length + w.length | none => 0) := by
  induction l with
  | nil =>
    cases v <;> simp [btInsert, presentSize, oldContribution, btFind]
  | cons hd tl ih =>
    obtain ⟨k1, v1⟩ := hd
    have hs1 : SortedKeys tl := (List.pairwise_cons.mp hs).2
    have hhd : ∀ p ∈ tl, k1 < p.1 := (List.pairwise_cons.mp hs).1
    by_cases h1 : k < k1
    · have hnone : btFind k ((k1, v1) :: tl) = none := by
        refine btFind_eq_none_of_lt_all k _ ?_
        intro p hp
        rcases List.mem_cons.mp hp with h | h
        · rw [h]; exact h1
        · exact lt_trans h1 (hhd p h)
      simp only [btInsert, if_pos h1, oldContribution, hnone]
      cases v <;> cases v1 <;> simp [presentSize] <;> omega
    · by_cases h2 : k = k1
      · have hfind : btFind k ((k1, v1) :: tl) = some v1 := by
          simp [btFind, h2.symm]
        simp only [btInsert, if_neg h1, if_pos h2, oldContribution, hfind]
        subst h2
        cases v <;> cases v1 <;> simp [presentSize] <;> omega
      · have hne : k1 ≠ k := fun h => h2 h.symm
        have hfind : btFind k ((k1, v1) :: tl) = btFind k tl := by
          simp [btFind, hne]
        have ih1 := ih hs1
        simp only [btInsert, if_neg h1, if_neg h2]
        simp only [oldContribution, hfind] at *
        cases v1 with
        | some w =>
          simp only [presentSize]
          cases v <;> simp at ih1 ⊢ <;> omega
        | none =>
          simp only [presentSize]
          cases v <;> simp at ih1 ⊢ <;> omega

end PresentSizeLemmas

section AccountantInvariant

theorem foldl_memops_invariant (ops : List MemOp) :
    ∀ (m : MemTable) (c : Nat), SortedKeys m.data →
      m.size_bytes = presentSize m.data + c →
      SortedKeys (ops.foldl applyMemOp m).data ∧
      (ops.foldl applyMemOp m).size_bytes
        = presentSize (ops.foldl applyMemOp m).data + (c + leakAux m ops) := by
  induction ops with
  | nil =>
    intro m c hs hsz
    simpa [leakAux] using ⟨hs, hsz⟩
  | cons op rest ih =>
    intro m c hs hsz
    cases op with
    | ins k v =>
      have hs2 : SortedKeys (m.insert k v).data :=
        sortedKeys_btInsert k (some v) m.data hs
      have hsz2 : (m.insert k v).size_bytes = presentSize (m.insert k v).data + c := by
        have hadd : presentSize (btInsert k (some v) m.data) + oldContribution k m.data
            = presentSize m.data + (k.length + v.length) := by
          simpa using presentSize_btInsert k (some v) m.data hs
        have hle := oldContribution_le_presentSize k m.data
        have hsub : (match btFind k m.data with
            | some (some old_value) => k.length + old_value.length
            | _ => 0) = oldContribution k m.data := rfl
        simp only [MemTable.insert, hsub]
        omega
      have hrec := ih (m.insert k v) c hs2 hsz2
      have hleak : leakAux m (MemOp.ins k v :: rest) = leakAux (m.insert k v) rest := by
        simp [leakAux, applyMemOp]
      constructor
      · simpa [applyMemOp] using hrec.1
      · simp only [List.foldl_cons, applyMemOp, hleak]
        simpa [applyMemOp] using hrec.2
    | rem k =>
      have hs2 : SortedKeys (m.remove k).data :=
        sortedKeys_btInsert k none m.data hs
      have hsz2 : (m.remove k).size_bytes
          = presentSize (m.remove k).data + (c + oldContribution k m.data) := by
        have hadd : presentSize (btInsert k none m.data) + oldContribution k m.data
            = presentSize m.data := by
          simpa using presentSize_btInsert k none m.data hs
        simp only [MemTable.remove]
        omega
      have hrec := ih (m.remove k) (c + oldContribution k m.data) hs2 hsz2
      have hleak : leakAux m (MemOp.rem k :: rest)
          = oldContribution k m.data + leakAux (m.remove k) rest := by
        simp only [leakAux, applyMemOp]
        congr 1
      constructor
      · simpa [applyMemOp] using hrec.1
      · simp only [List.foldl_cons, applyMemOp, hleak]
        have := hrec.2
        simp only [applyMemOp] at this ⊢
        omega

end AccountantInvariant

/-- C3 counterexample: after `insert([0], [0])` then `remove([0])` the
accountant holds `2` bytes although no entry is bound to a present value, so
`size_bytes` is not the sum of `|k| + |v|` over present entries. -/
theorem memtable_size_bytes_ne_presentSize :
    ((MemTable.new.insert [0] [0]).remove [0]).size_bytes
      ≠ presentSize ((MemTable.new.insert [0] [0]).remove [0]).data := by
  decide

/-- C3 (amended): for every sequence of `insert`/`remove` operations from the
empty memtable, `size_bytes` equals the sum of `|k| + |v|` over entries
currently bound to a present value, plus the accumulated leak: for each
`remove` that hit a presently present value, its `|k| + |old|` contribution
stays in the accountant forever (the accountant is never decremented by
`remove`). -/
theorem memtable_size_bytes_eq_presentSize_add_leak (ops : List MemOp) :
    (applyMemOps ops).size_bytes
      = presentSize (applyMemOps ops).data + leakOf ops := by
  have h := foldl_memops_invariant ops MemTable.new 0 (by simp [MemTable.new, SortedKeys]) (by simp [MemTable.new, presentSize])
  simpa [applyMemOps, leakOf] using h.2

/-- C8: `MemTable::insert(key, value)` stores `Some(value)` under `key` and
updates the accountant by first subtracting `|key| + |old_value|` exactly when
`key` was previously bound to a present value `old_value` (no subtraction when
`key` was absent or tombstoned), then adding `|key| + |value|`. -/
theorem memtable_insert_accounting (m : MemTable) (key value : Bytes) :
    btFind key (m.insert key value).data = some (some value) ∧
    (m.insert key value).get key = some value ∧
    (btFind key m.data = none →
      (m.insert key value).size_bytes = m.size_bytes + (key.length + value.length)) ∧
    (btFind key m.data = some none →
      (m.insert key value).size_bytes = m.size_bytes + (key.length + value.length)) ∧
    (∀ old_value, btFind key m.data = some (some old_value) →
      (m.insert key value).size_bytes
        = m.size_bytes - (key.length + old_value.length) + (key.length + value.length)) := by
  refine ⟨btFind_btInsert_self key (some value) m.data, ?_, ?_, ?_, ?_⟩
  · simp [MemTable.get, MemTable.insert, btFind_btInsert_self]
  · intro h
    simp [MemTable.insert, h]
  · intro h
    simp [MemTable.insert, h]
  · intro old_value h
    simp [MemTable.insert, h]

/-- Witness for C8 at a concrete memtable where the key is already bound to a
present value. -/
theorem memtable_insert_accounting_witness :
    ((MemTable.new.insert [1] [2, 3]).insert [1] [4]).get [1] = some [4] ∧
    ((MemTable.new.insert [1] [2, 3]).insert [1] [4]).size_bytes
      = (MemTable.new.insert [1] [2, 3]).size_bytes - 3 + 2 := by
  refine ⟨(memtable_insert_accounting (MemTable.new.insert [1] [2, 3]) [1] [4]).2.1, ?_⟩
  have h := (memtable_insert_accounting (MemTable.new.insert [1] [2, 3]) [1] [4]).2.2.2.2
      [2, 3] (by decide)
  simpa using h

/-- C10: `MemTable::remove(key)` unconditionally stores a tombstone binding for
`key`; `len()` counts tombstoned keys, so removing a key that was never bound
increases `len()` by exactly one. -/
theorem memtable_remove_tombstone_len (m : MemTable) (key : Bytes) :
    btFind key (m.remove key).data = some none ∧
    (btFind key m.data = none → (m.remove key).len = m.len + 1) := by
  constructor
  · exact btFind_btInsert_self key none m.data
  · intro h
    have : ∀ l : List (Bytes × Option Bytes), btFind key l = none →
        (btInsert key none l).length = l.length + 1 := by
      intro l
      induction l with
      | nil => intro _; simp [btInsert]
      | cons hd tl ih =>
        intro hl
        obtain ⟨k1, v1⟩ := hd
        by_cases h1 : k1 = key
        · simp [btFind, h1] at hl
        · simp only [btFind, if_neg h1] at hl
          by_cases h2 : key < k1
          · simp [btInsert, h2]
          · have h3 : key ≠ k1 := fun he => h1 he.symm
            simp [btInsert, h2, h3, ih hl]
    simpa [MemTable.remove, MemTable.len] using this m.data h

/-- Witness for C10: removing the never-inserted key `[0]` from the empty
memtable stores a tombstone and raises `len` from `0` to `1`. -/
theorem memtable_remove_tombstone_len_witness :
    btFind [0] (MemTable.new.remove [0]).data = some none ∧
    (MemTable.new.remove [0]).len = MemTable.new.len + 1 := by
  refine ⟨(memtable_remove_tombstone_len MemTable.new [0]).1, ?_⟩
  exact (memtable_remove_tombstone_len MemTable.new [0]).2 (by decide)

/-! On-disk byte encodings (`ss_table.rs`).  `toBe w n` models Rust's
`to_be_bytes` on a `w`-byte unsigned integer (truncating like an `as` cast),
`fromBe` models `from_be_bytes`. -/

/-- Big-endian encoding of `n` on `w` bytes, most significant byte first. -/
def toBe : Nat → Nat → Bytes
  | 0, _ => []
  | w + 1, n => toBe w (n / 256) ++ [n % 256]

/-- Big-endian decoding. -/
def fromBe (bs : Bytes) : Nat := bs.foldl (fun acc b => acc * 256 + b) 0

theorem toBe_length (w n : Nat) : (toBe w n).length = w := by
  induction w generalizing n with
  | zero => rfl
  | succ w ih => simp [toBe, ih]

theorem fromBe_append_byte (bs : Bytes) (b : Nat) :
    fromBe (bs ++ [b]) = fromBe bs * 256 + b := by
  simp [fromBe]

theorem fromBe_toBe (w n : Nat) (h : n < 256 ^ w) : fromBe (toBe w n) = n := by
  induction w generalizing n with
  | zero =>
    interval_cases n
    rfl
  | succ w ih =>
    have hdiv : n / 256 < 256 ^ w := by
      rw [Nat.div_lt_iff_lt_mul (by norm_num)]
      calc n < 256 ^ (w + 1) := h
        _ = 256 ^ w * 256 := by rw [pow_succ]
    rw [toBe, fromBe_append_byte, ih _ hdiv]
    omega

/-- Length in bytes of one data record, as returned by
`SSTable::write_entry`: `4 + |value|` for a live value, `4` for a tombstone. -/
def entryRecordLen (v : Option Bytes) : Nat :=
  match v with
  | some value => 4 + value.length
  | none => 4

/-- Bytes that `SSTable::write_entry` appends to the data file:
`[len as u32 BE][bytes]` for a live value, the `0xFFFFFFFF` sentinel for a
tombstone. -/
def write_entry_bytes (v : Option Bytes) : Bytes :=
  match v with
  | some value => toBe 4 value.length ++ value
  | none => toBe 4 0xFFFFFFFF

/-- Concatenated data file produced while iterating the memtable. -/
def dataFileBytes : List (Bytes × Option Bytes) → Bytes
  | [] => []
  | (_, v) :: rest => write_entry_bytes v ++ dataFileBytes rest

/-- Length in bytes of one index entry: `4 + |key| + 8`
(`ss_table.rs` line 60, `entry_size`). -/
def indexEntrySize (k : Bytes) : Nat := 4 + k.length + 8

/-- Bytes of one index entry: `[key_len u32 BE][key][data_offset u64 BE]`
(`SSTable::write_index` body). -/
def index_entry_bytes (k : Bytes) (off : Nat) : Bytes :=
  toBe 4 k.length ++ k ++ toBe 8 off

/-- Concatenated index file written by `SSTable::write_index`. -/
def indexFileBytes : List (Bytes × Nat) → Bytes
  | [] => []
  | (k, off) :: rest => index_entry_bytes k off ++ indexFileBytes rest

/-- The dense `index_vec` built in `SSTable::load_from_memtable`: each entry is
paired with the data-file offset at which its record starts, the offset
advancing by the record length. -/
def buildIndex (off : Nat) : List (Bytes × Option Bytes) → List (Bytes × Nat)
  | [] => []
  | (k, v) :: rest => (k, off) :: buildIndex (off + entryRecordLen v) rest

/-- The LOCAL `sparse_index` vector computed inside
`SSTable::load_from_memtable` (line 47, `let mut sparse_index = Vec::new()`):
at each entry whose running counter `i` satisfies `i % 100 == 0`, push
`(key, sparse_offset)`; `sparse_offset` then advances by `4 + |key| + 8`.
Note this local binding SHADOWS the struct field `self.sparse_index` and the
function never assigns the field, so the vector built here is dropped when
`load_from_memtable` returns. -/
def buildSparse (i soff : Nat) : List (Bytes × Option Bytes) → List (Bytes × Nat)
  | [] => []
  | (k, _) :: rest =>
    if i % 100 = 0 then (k, soff) :: buildSparse (i + 1) (soff + indexEntrySize k) rest
    else buildSparse (i + 1) (soff + indexEntrySize k) rest

/-- Model of `SSTable` from `src/ss_table.rs`: the two on-disk byte streams,
the sparse in-memory index, and the cached `min_key`/`max_key`. -/
structure SSTable where
  data_file : Bytes
  index_file : Bytes
  sparse_index : List (Bytes × Nat)
  min_key : Bytes
  max_key : Bytes
  deriving Repr, DecidableEq

namespace SSTable

/-- `SSTable::new` followed by `SSTable::load_from_memtable` (the only way the
repository's code ever fills a table).  `write_index` unwraps
`index.first()`/`index.last()`, which panics when the memtable was empty; the
panic is modelled by the `none` result.  The `sparse_index` field is the
`Vec::new()` stored by `SSTable::new` (line 37): `load_from_memtable` computes
its samples into a shadowing local `sparse_index` vector (line 47) and never
assigns `self.sparse_index`, so the field remains empty. -/
def load_from_memtable (m : MemTable) : Option SSTable :=
  let index_vec := buildIndex 0 m.data
  match index_vec.head?, index_vec.getLast? with
  | some first, some last =>
    some { data_file := dataFileBytes m.data
           index_file := indexFileBytes index_vec
           sparse_index := []
           min_key := first.1
           max_key := last.1 }
  | _, _ => none

end SSTable

/-- C9: constructing an SSTable from an empty memtable reaches the
`index.first().unwrap()` panic in `write_index` (modelled by `none`), and the
construction is panic-free exactly when the memtable is non-empty. -/
theorem load_from_memtable_panics_iff_empty (m : MemTable) :
    SSTable.load_from_memtable m = none ↔ m.data = [] := by
  constructor
  · intro h
    by_contra hne
    obtain ⟨⟨k, v⟩, rest, hdata⟩ : ∃ p l, m.data = p :: l := by
      cases hd : m.data with
      | nil => exact absurd hd hne
      | cons p l => exact ⟨p, l, rfl⟩
    have hidx : buildIndex 0 m.data = (k, 0) :: buildIndex (entryRecordLen v) rest := by
      rw [hdata]; simp [buildIndex]
    obtain ⟨last, hlast⟩ :
        ∃ p, ((k, 0) :: buildIndex (entryRecordLen v) rest).getLast? = some p :=
      Option.isSome_iff_exists.mp (by simp [List.getLast?_isSome])
    simp [SSTable.load_from_memtable, hidx, hlast] at h
  · intro h
    simp [SSTable.load_from_memtable, h, buildIndex]

section IndexLemmas

theorem buildIndex_map_fst (l : List (Bytes × Option Bytes)) :
    ∀ off, (buildIndex off l).map Prod.fst = l.map Prod.fst := by
  induction l with
  | nil => intro off; rfl
  | cons hd tl ih =>
    intro off
    obtain ⟨k, v⟩ := hd
    simp [buildIndex, ih]

theorem buildIndex_pairwise (l : List (Bytes × Option Bytes)) (off : Nat)
    (hs : SortedKeys l) :
    ((buildIndex off l).map Prod.fst).Pairwise (· < ·) := by
  rw [buildIndex_map_fst]
  exact List.pairwise_map.mpr hs

end IndexLemmas

/-- C6: for every SSTable built from a sorted non-empty memtable, the written
index entries are in strictly ascending key order (hence each key appears at
most once), `min_key` is the first index key and `max_key` is the last. -/
theorem sstable_index_sorted_min_max (m : MemTable) (t : SSTable)
    (hs : SortedKeys m.data) (h : SSTable.load_from_memtable m = some t) :
    ((buildIndex 0 m.data).map Prod.fst).Pairwise (· < ·) ∧
    ((buildIndex 0 m.data).map Prod.fst).Nodup ∧
    ((buildIndex 0 m.data).map Prod.fst).head? = some t.min_key ∧
    ((buildIndex 0 m.data).map Prod.fst).getLast? = some t.max_key := by
  have hp := buildIndex_pairwise m.data 0 hs
  refine ⟨hp, hp.imp ne_of_lt, ?_, ?_⟩ <;>
  · unfold SSTable.load_from_memtable at h
    cases hh : (buildIndex 0 m.data).head? with
    | none => simp [hh] at h
    | some first =>
      cases hl : (buildIndex 0 m.data).getLast? with
      | none => simp [hh, hl] at h
      | some last =>
        simp only [hh, hl] at h
        cases h
        simp [List.head?_map, List.getLast?_map, hh, hl]

/-- Witness for C6 on the two-key memtable `{[0] ↦ [7], [2] ↦ [9]}`. -/
theorem sstable_index_sorted_min_max_witness :
    ∃ t, SSTable.load_from_memtable ((MemTable.new.insert [0] [7]).insert [2] [9]) = some t ∧
      (((buildIndex 0 ((MemTable.new.insert [0] [7]).insert [2] [9]).data).map Prod.fst).Pairwise (· < ·) ∧
       ((buildIndex 0 ((MemTable.new.insert [0] [7]).insert [2] [9]).data).map Prod.fst).Nodup ∧
       ((buildIndex 0 ((MemTable.new.insert [0] [7]).insert [2] [9]).data).map Prod.fst).head? = some t.min_key ∧
       ((buildIndex 0 ((MemTable.new.insert [0] [7]).insert [2] [9]).data).map Prod.fst).getLast? = some t.max_key) := by
  have hs : SortedKeys ((MemTable.new.insert [0] [7]).insert [2] [9]).data := by
    simp only [SortedKeys]
    decide
  have hload : SSTable.load_from_memtable ((MemTable.new.insert [0] [7]).insert [2] [9])
      = some { data_file := dataFileBytes ((MemTable.new.insert [0] [7]).insert [2] [9]).data
               index_file := indexFileBytes (buildIndex 0 ((MemTable.new.insert [0] [7]).insert [2] [9]).data)
               sparse_index := []
               min_key := [0]
               max_key := [2] } := by decide
  exact ⟨_, hload, sstable_index_sorted_min_max _ _ hs hload⟩

/-- Byte offset of the `i`-th index entry inside the index file: the offsets
advance by `4 + |key| + 8` per entry. -/
def indexOffsetUpTo (l : List (Bytes × Option Bytes)) (i : Nat) : Nat :=
  ((l.take i).map (fun e => indexEntrySize e.1)).sum

section SparseLemmas

theorem indexOffsetUpTo_zero (l : List (Bytes × Option Bytes)) :
    indexOffsetUpTo l 0 = 0 := by
  simp [indexOffsetUpTo]

theorem indexOffsetUpTo_cons_succ (k : Bytes) (v : Option Bytes)
    (tl : List (Bytes × Option Bytes)) (j : Nat) :
    indexOffsetUpTo ((k, v) :: tl) (j + 1) = indexEntrySize k + indexOffsetUpTo tl j := by
  simp [indexOffsetUpTo, List.take_succ_cons]

theorem buildSparse_eq_filter_range (l : List (Bytes × Option Bytes)) :
    ∀ c s, buildSparse c s l
      = ((List.range l.length).filter (fun j => decide ((c + j) % 100 = 0))).map
          (fun j => ((l.getD j ([], none)).1, s + indexOffsetUpTo l j)) := by
  induction l with
  | nil => intro c s; simp [buildSparse]
  | cons hd tl ih =>
    intro c s
    obtain ⟨k, v⟩ := hd
    have htail :
        ((((List.range tl.length).map Nat.succ).filter
            (fun j => decide ((c + j) % 100 = 0))).map
          (fun j => ((((k, v) :: tl).getD j ([], none)).1,
            s + indexOffsetUpTo ((k, v) :: tl) j)))
        = buildSparse (c + 1) (s + indexEntrySize k) tl := by
      rw [List.filter_map Nat.succ, List.map_map]
      rw [ih (c + 1) (s + indexEntrySize k)]
      have hpred : ∀ j ∈ List.range tl.length,
          ((fun j => decide ((c + j) % 100 = 0)) ∘ Nat.succ) j
            = (fun j => decide ((c + 1 + j) % 100 = 0)) j := by
        intro j _
        simp only [Function.comp]
        have harith : c + Nat.succ j = c + 1 + j := by omega
        rw [harith]
      rw [List.filter_congr hpred]
      refine List.map_congr_left ?_
      intro j _
      simp only [Function.comp, Nat.succ_eq_add_one, List.getD_cons_succ,
        indexOffsetUpTo_cons_succ]
      simp [Nat.add_assoc]
    rw [List.length_cons, List.range_succ_eq_map, List.filter_cons]
    by_cases hc : c % 100 = 0
    · have hc0 : decide ((c + 0) % 100 = 0) = true := by simpa using hc
      rw [hc0]
      simp only [if_true, List.map_cons]
      simp only [List.getD_cons_zero, indexOffsetUpTo_zero, Nat.add_zero]
      rw [htail]
      simp [buildSparse, hc]
    · have hc0 : decide ((c + 0) % 100 = 0) = false := by simpa using hc
      rw [hc0]
      simp only [Bool.false_eq_true, if_false]
      rw [htail]
      simp [buildSparse, hc]

end SparseLemmas

/-- C4: the claim is FALSE of the code (code bug).  In
`SSTable::load_from_memtable` the every-100th samples are pushed into a local
`sparse_index` vector (line 47) that shadows the struct field; the field is
only ever assigned `Vec::new()` in `SSTable::new` (line 37).  So the in-memory
sparse index of every constructible SSTable is empty, while the sampling the
claim describes (the discarded local vector, modelled by `buildSparse`) always
contains the entry at position 0 and is therefore non-empty: the field never
equals the claimed sampling. -/
theorem sstable_sparse_index_never_populated (m : MemTable) (t : SSTable)
    (h : SSTable.load_from_memtable m = some t) :
    t.sparse_index = [] ∧
    buildSparse 0 0 m.data ≠ [] ∧
    t.sparse_index ≠ buildSparse 0 0 m.data := by
  have hne : m.data ≠ [] := by
    intro hnil
    simp [SSTable.load_from_memtable, hnil, buildIndex] at h
  have hempty : t.sparse_index = [] := by
    unfold SSTable.load_from_memtable at h
    cases hh : (buildIndex 0 m.data).head? with
    | none => simp [hh] at h
    | some first =>
      cases hl : (buildIndex 0 m.data).getLast? with
      | none => simp [hh, hl] at h
      | some last =>
        simp only [hh, hl] at h
        cases h
        rfl
  have hb : buildSparse 0 0 m.data ≠ [] := by
    cases hd : m.data with
    | nil => exact absurd hd hne
    | cons p rest =>
      obtain ⟨k, v⟩ := p
      simp [buildSparse]
  exact ⟨hempty, hb, by rw [hempty]; exact fun hc => hb hc.symm⟩

/-- Witness for C4 on the one-entry memtable `{[0] ↦ [7]}`: construction
succeeds, the resulting table's sparse index is empty, yet the sampling
described by the claim contains the entry at position 0 with offset 0. -/
theorem sstable_sparse_index_never_populated_witness :
    ∃ t, SSTable.load_from_memtable (MemTable.new.insert [0] [7]) = some t ∧
      (t.sparse_index = [] ∧
       buildSparse 0 0 (MemTable.new.insert [0] [7]).data ≠ [] ∧
       t.sparse_index ≠ buildSparse 0 0 (MemTable.new.insert [0] [7]).data) := by
  have hload : SSTable.load_from_memtable (MemTable.new.insert [0] [7])
      = some { data_file := dataFileBytes (MemTable.new.insert [0] [7]).data
               index_file := indexFileBytes (buildIndex 0 (MemTable.new.insert [0] [7]).data)
               sparse_index := []
               min_key := [0]
               max_key := [0] } := by decide
  exact ⟨_, hload, sstable_sparse_index_never_populated _ _ hload⟩

/-! The SSTable read path (`ss_table.rs` lines 107-193), modelled over the
byte stream with an explicit reader position.  A `none` result of the outer
`Option` models a panic; `some r` models a normal return of `r`, which has the
source's `Option<Vec<u8>>` type. -/

/-- Model of `read_exact` issued at reader position `pos` for `n` bytes:
succeeds exactly when the file has that many bytes left. -/
def readExact (file : Bytes) (pos n : Nat) : Option Bytes :=
  if pos + n ≤ file.length then some ((file.drop pos).take n) else none

/-- `SSTable::get_next_key_in_index_file`: read `[key_len u32][key][offset u64]`
at position `pos`; also returns the advanced reader position. -/
def get_next_key_in_index_file (file : Bytes) (pos : Nat) :
    Option (Bytes × Nat × Nat) :=
  match readExact file pos 4 with
  | none => none
  | some key_len_bytes =>
    let key_len := fromBe key_len_bytes
    match readExact file (pos + 4) key_len with
    | none => none
    | some stored_key =>
      match readExact file (pos + 4 + key_len) 8 with
      | none => none
      | some offset_bytes =>
        some (stored_key, fromBe offset_bytes, pos + 4 + key_len + 8)

/-- `SSTable::read_value_at_offset`: read the 4-byte length at `offset`; the
sentinel `0xFFFFFFFF` means the key was deleted and the source returns `None`;
otherwise read that many value bytes.  The outer `none` models the source's
`unwrap` panic on a failed length read. -/
def read_value_at_offset (data_file : Bytes) (offset : Nat) : Option (Option Bytes) :=
  match readExact data_file offset 4 with
  | none => none
  | some len_bytes =>
    let value_len := fromBe len_bytes
    if value_len = 0xFFFFFFFF then some none
    else
      match readExact data_file (offset + 4) value_len with
      | none => some none
      | some value => some (some value)

section ReadExactLemmas

theorem readExact_exact (a b c : Bytes) :
    readExact (a ++ b ++ c) a.length b.length = some b := by
  unfold readExact
  rw [if_pos]
  · rw [List.append_assoc, List.drop_left, List.take_left]
  · simp [List.length_append]

theorem readExact_toBe4 (a c : Bytes) (n : Nat) :
    readExact (a ++ toBe 4 n ++ c) a.length 4 = some (toBe 4 n) := by
  have h := readExact_exact a (toBe 4 n) c
  rwa [toBe_length] at h

end ReadExactLemmas

theorem read_value_write_some (front v rest : Bytes) (h : v.length ≤ 2 ^ 32 - 2) :
    read_value_at_offset (front ++ write_entry_bytes (some v) ++ rest) front.length
      = some (some v) := by
  have hlt : v.length < 2 ^ 32 := by omega
  have hsome : write_entry_bytes (some v) = toBe 4 v.length ++ v := rfl
  have h4 : readExact (front ++ write_entry_bytes (some v) ++ rest) front.length 4
      = some (toBe 4 v.length) := by
    have hassoc : front ++ write_entry_bytes (some v) ++ rest
        = front ++ toBe 4 v.length ++ (v ++ rest) := by
      rw [hsome]
      simp [List.append_assoc]
    rw [hassoc]
    exact readExact_toBe4 front (v ++ rest) v.length
  have hfrom : fromBe (toBe 4 v.length) = v.length :=
    fromBe_toBe 4 v.length (by norm_num; omega)
  have hval : readExact (front ++ write_entry_bytes (some v) ++ rest)
      (front.length + 4) v.length = some v := by
    have hassoc : front ++ write_entry_bytes (some v) ++ rest
        = (front ++ toBe 4 v.length) ++ v ++ rest := by
      rw [hsome]
      simp [List.append_assoc]
    have hlen : (front ++ toBe 4 v.length).length = front.length + 4 := by
      simp [toBe_length]
    rw [hassoc, ← hlen]
    exact readExact_exact (front ++ toBe 4 v.length) v rest
  simp only [read_value_at_offset, h4, hfrom, hval]
  rw [if_neg (by omega)]

theorem read_value_write_none (front rest : Bytes) :
    read_value_at_offset (front ++ write_entry_bytes none ++ rest) front.length
      = some none := by
  have hnone : write_entry_bytes none = toBe 4 0xFFFFFFFF := rfl
  have h4 : readExact (front ++ write_entry_bytes none ++ rest) front.length 4
      = some (toBe 4 0xFFFFFFFF) := by
    rw [hnone]
    exact readExact_toBe4 front rest 0xFFFFFFFF
  have hfrom : fromBe (toBe 4 0xFFFFFFFF) = 0xFFFFFFFF :=
    fromBe_toBe 4 0xFFFFFFFF (by norm_num)
  simp only [read_value_at_offset, h4, hfrom]
  simp

/-- C7: data-record round-trip.  For every value `v` with
`|v| ≤ 2^32 − 2` (the empty value included), writing the data record for
`Some(v)` at an arbitrary offset and reading back at that offset yields `v`,
and the record occupies exactly `4 + |v|` bytes; the record for `None` is the
4-byte sentinel `0xFFFFFFFF` and reads back as the tombstone result. -/
theorem data_record_roundtrip (front v rest : Bytes) (h : v.length ≤ 2 ^ 32 - 2) :
    read_value_at_offset (front ++ write_entry_bytes (some v) ++ rest) front.length
      = some (some v) ∧
    (write_entry_bytes (some v)).length = 4 + v.length ∧
    write_entry_bytes none = [255, 255, 255, 255] ∧
    read_value_at_offset (front ++ write_entry_bytes none ++ rest) front.length
      = some none := by
  refine ⟨read_value_write_some front v rest h, ?_, by decide,
    read_value_write_none front rest⟩
  show (toBe 4 v.length ++ v).length = 4 + v.length
  simp [toBe_length]

/-- Witness for C7 at `v = [222, 173, 190, 239]` written after a 3-byte front
and before a junk tail. -/
theorem data_record_roundtrip_witness :
    read_value_at_offset
        ([1, 2, 3] ++ write_entry_bytes (some [222, 173, 190, 239]) ++ [9])
        (List.length [1, 2, 3])
      = some (some [222, 173, 190, 239]) ∧
    (write_entry_bytes (some [222, 173, 190, 239])).length = 4 + 4 := by
  have h := data_record_roundtrip [1, 2, 3] [222, 173, 190, 239] [9] (by norm_num)
  exact ⟨h.1, h.2.1⟩

/-- The loop of `SSTable::get_from_index_file`: repeatedly read the next index
entry; on EOF return `None`; on an exact key match read the value at the
entry's data offset; as soon as a stored key greater than the probe key is
read, return `None` (`Missing`).  The fuel argument only bounds the iteration
count; each successful `get_next_key_in_index_file` consumes at least 12 bytes
of the file, so `file.length + 1` iterations always reach the source loop's
own exit. -/
def scan_index (t : SSTable) (key : Bytes) : Nat → Nat → Option (Option Bytes)
  | 0, _ => none
  | fuel + 1, pos =>
    match get_next_key_in_index_file t.index_file pos with
    | none => some none
    | some (stored_key, off, pos1) =>
      if stored_key = key then read_value_at_offset t.data_file off
      else if key < stored_key then some none
      else scan_index t key fuel pos1

/-- `SSTable::get_from_index_file`: seek the index reader to `offset` and run
the scan loop. -/
def SSTable.get_from_index_file (t : SSTable) (key : Bytes) (offset : Nat) :
    Option (Option Bytes) :=
  scan_index t key (t.index_file.length + 1) offset

/-- Result of Rust's `slice::binary_search_by` on the sparse index, which on a
strictly sorted slice is specified exactly: `Ok i` when element `i` compares
equal, otherwise `Err` of the insertion point, the number of elements that
compare less. -/
def binary_search_by (sparse : List (Bytes × Nat)) (key : Bytes) : Except Nat Nat :=
  match sparse.findIdx? (fun p => decide (p.1 = key)) with
  | some i => Except.ok i
  | none => Except.error (sparse.countP (fun p => decide (p.1 < key)))

/-- `SSTable::get`: binary-search the sparse index; on an exact hit start the
index-file scan at that entry's offset, on a miss at the offset of entry
`idx - 1` (or `0` when `idx == 0`). -/
def SSTable.get (t : SSTable) (key : Bytes) : Option (Option Bytes) :=
  let start_offset :=
    match binary_search_by t.sparse_index key with
    | Except.ok idx => (t.sparse_index.getD idx ([], 0)).2
    | Except.error idx =>
      if idx = 0 then 0 else (t.sparse_index.getD (idx - 1) ([], 0)).2
  t.get_from_index_file key start_offset

/-- C2 exhibit: `SSTable::get` returns `Option<Vec<u8>>`, so on the table built
from the memtable `{[0] ↦ tombstone, [2] ↦ [5]}` the lookup of the tombstoned
key `[0]` and the lookup of the absent key `[1]` both return `None` — the
tombstone result is not distinguishable from the missing result, so a
tombstone in a newer layer cannot shadow a present value in an older layer
through this interface. -/
theorem sstable_get_conflates_tombstone_and_missing :
    (SSTable.load_from_memtable ((MemTable.new.insert [2] [5]).remove [0])).map
        (fun t => (t.get [0], t.get [1]))
      = some (some none, some none) := by
  decide

section ByteStreamLemmas

theorem write_entry_bytes_length (v : Option Bytes) :
    (write_entry_bytes v).length = entryRecordLen v := by
  cases v <;> simp [write_entry_bytes, entryRecordLen, toBe_length]

theorem dataFileBytes_cons (k : Bytes) (v : Option Bytes)
    (tl : List (Bytes × Option Bytes)) :
    dataFileBytes ((k, v) :: tl) = write_entry_bytes v ++ dataFileBytes tl := rfl

theorem index_entry_bytes_length (k : Bytes) (off : Nat) :
    (index_entry_bytes k off).length = indexEntrySize k := by
  simp [index_entry_bytes, indexEntrySize, toBe_length]
  omega

theorem indexFileBytes_append (a b : List (Bytes × Nat)) :
    indexFileBytes (a ++ b) = indexFileBytes a ++ indexFileBytes b := by
  induction a with
  | nil => rfl
  | cons hd tl ih =>
    obtain ⟨k, off⟩ := hd
    simp [indexFileBytes, ih]

theorem indexFileBytes_length (l : List (Bytes × Nat)) :
    (indexFileBytes l).length = (l.map (fun p => indexEntrySize p.1)).sum := by
  induction l with
  | nil => rfl
  | cons hd tl ih =>
    obtain ⟨k, off⟩ := hd
    simp [indexFileBytes, index_entry_bytes_length, ih]

theorem length_le_indexFileBytes_length (l : List (Bytes × Nat)) :
    l.length ≤ (indexFileBytes l).length := by
  induction l with
  | nil => simp
  | cons hd tl ih =>
    obtain ⟨k, off⟩ := hd
    simp only [indexFileBytes, List.length_append, List.length_cons,
      index_entry_bytes_length]
    have : 1 ≤ (index_entry_bytes k off).length := by
      rw [index_entry_bytes_length]
      simp [indexEntrySize]
    rw [index_entry_bytes_length] at this
    simp [indexEntrySize] at this ⊢
    omega

theorem readExact_of_drop (file : Bytes) (pos n : Nat) (b c : Bytes)
    (hb : b.length = n) (hd : file.drop pos = b ++ c) (hpos : pos ≤ file.length) :
    readExact file pos n = some b := by
  have hlen : (file.drop pos).length = file.length - pos := List.length_drop pos file
  rw [hd] at hlen
  simp only [List.length_append] at hlen
  unfold readExact
  rw [if_pos (by omega)]
  rw [hd, ← hb, List.take_left]

theorem drop_advance (file : Bytes) (pos n : Nat) (b c : Bytes)
    (hb : b.length = n) (hd : file.drop pos = b ++ c) :
    file.drop (pos + n) = c := by
  have h1 : file.drop (pos + n) = (file.drop pos).drop n := (List.drop_drop n pos file).symm
  rw [h1, hd, ← hb, List.drop_left]

theorem get_next_at_boundary (file : Bytes) (pos : Nat) (k : Bytes) (off : Nat)
    (rest : Bytes) (hk : k.length < 2 ^ 32) (hoff : off < 2 ^ 64)
    (hd : file.drop pos = index_entry_bytes k off ++ rest) (hpos : pos ≤ file.length) :
    get_next_key_in_index_file file pos = some (k, off, pos + 4 + k.length + 8) := by
  have hsplit1 : file.drop pos = toBe 4 k.length ++ (k ++ (toBe 8 off ++ rest)) := by
    rw [hd]
    simp [index_entry_bytes, List.append_assoc]
  have h1 : readExact file pos 4 = some (toBe 4 k.length) :=
    readExact_of_drop file pos 4 _ _ (toBe_length 4 _) hsplit1 hpos
  have hdrop1 : file.drop (pos + 4) = k ++ (toBe 8 off ++ rest) :=
    drop_advance file pos 4 _ _ (toBe_length 4 _) hsplit1
  have hpos1 : pos + 4 ≤ file.length := by
    have hlen : (file.drop (pos + 4)).length = file.length - (pos + 4) :=
      List.length_drop _ _
    rw [hdrop1] at hlen
    simp only [List.length_append, toBe_length] at hlen
    omega
  have h2 : readExact file (pos + 4) k.length = some k :=
    readExact_of_drop file (pos + 4) k.length k _ rfl hdrop1 hpos1
  have hdrop2 : file.drop (pos + 4 + k.length) = toBe 8 off ++ rest :=
    drop_advance file (pos + 4) k.length k _ rfl hdrop1
  have hpos2 : pos + 4 + k.length ≤ file.length := by
    have hlen : (file.drop (pos + 4 + k.length)).length
        = file.length - (pos + 4 + k.length) := List.length_drop _ _
    rw [hdrop2] at hlen
    simp only [List.length_append, toBe_length] at hlen
    omega
  have h3 : readExact file (pos + 4 + k.length) 8 = some (toBe 8 off) :=
    readExact_of_drop file (pos + 4 + k.length) 8 _ _ (toBe_length 8 _) hdrop2 hpos2
  have hk4 : fromBe (toBe 4 k.length) = k.length :=
    fromBe_toBe 4 k.length (by norm_num; omega)
  have hoff8 : fromBe (toBe 8 off) = off :=
    fromBe_toBe 8 off (by norm_num; omega)
  simp only [get_next_key_in_index_file, h1, hk4, h2, h3, hoff8]

end ByteStreamLemmas

/-- Entry-level view of the index-file scan loop: what
`get_from_index_file` computes once the byte stream has been decoded back
into index entries. -/
def entryScan (df : Bytes) (key : Bytes) : List (Bytes × Nat) → Option (Option Bytes)
  | [] => some none
  | (k, off) :: rest =>
    if k = key then read_value_at_offset df off
    else if key < k then some none
    else entryScan df key rest

/-- Well-formedness of decodable index entries: key lengths fit in `u32` and
data offsets fit in `u64`. -/
def wfIndexEntries (l : List (Bytes × Nat)) : Prop :=
  ∀ p ∈ l, p.1.length < 2 ^ 32 ∧ p.2 < 2 ^ 64

theorem scan_index_eq_entryScan (t : SSTable) (key : Bytes) :
    ∀ (suffix : List (Bytes × Nat)) (pos fuel : Nat),
      t.index_file.drop pos = indexFileBytes suffix →
      pos ≤ t.index_file.length →
      wfIndexEntries suffix →
      suffix.length < fuel →
      scan_index t key fuel pos = entryScan t.data_file key suffix := by
  intro suffix
  induction suffix with
  | nil =>
    intro pos fuel hd hpos hwf hfuel
    cases fuel with
    | zero => omega
    | succ f =>
      have h0 : (t.index_file.drop pos).length = 0 := by
        rw [hd]; rfl
      rw [List.length_drop] at h0
      have hnone : get_next_key_in_index_file t.index_file pos = none := by
        unfold get_next_key_in_index_file readExact
        rw [if_neg (by omega)]
      simp [scan_index, hnone, entryScan]
  | cons hd0 tl ih =>
    intro pos fuel hdrop hpos hwf hfuel
    obtain ⟨k, off⟩ := hd0
    cases fuel with
    | zero => simp at hfuel
    | succ f =>
      have hk : k.length < 2 ^ 32 :=
        (hwf (k, off) (List.mem_cons_self _ _)).1
      have hoff : off < 2 ^ 64 :=
        (hwf (k, off) (List.mem_cons_self _ _)).2
      have hdrop2 : t.index_file.drop pos
          = index_entry_bytes k off ++ indexFileBytes tl := by
        rw [hdrop]; rfl
      have hnext := get_next_at_boundary t.index_file pos k off
        (indexFileBytes tl) hk hoff hdrop2 hpos
      have hentrylen : (index_entry_bytes k off).length = 4 + k.length + 8 := by
        rw [index_entry_bytes_length]
        simp [indexEntrySize]
      have hadv : t.index_file.drop (pos + (4 + k.length + 8)) = indexFileBytes tl :=
        drop_advance _ pos _ (index_entry_bytes k off) _ hentrylen hdrop2
      have hadv2 : t.index_file.drop (pos + 4 + k.length + 8) = indexFileBytes tl := by
        have harith : pos + 4 + k.length + 8 = pos + (4 + k.length + 8) := by omega
        rw [harith]
        exact hadv
      have hposadv : pos + 4 + k.length + 8 ≤ t.index_file.length := by
        have hlen : (t.index_file.drop pos).length = t.index_file.length - pos :=
          List.length_drop _ _
        rw [hdrop2] at hlen
        simp only [List.length_append, hentrylen] at hlen
        omega
      simp only [scan_index, hnext]
      by_cases h1 : k = key
      · simp [entryScan, h1]
      · by_cases h2 : key < k
        · simp [entryScan, h1, h2]
        · simp only [if_neg h1, if_neg h2, entryScan]
          exact ih _ f hadv2 hposadv
            (fun p hp => hwf p (List.mem_cons_of_mem _ hp))
            (by simp at hfuel; omega)

/-- Well-formedness of memtable values for serialization: every present
value's length stays below the `0xFFFFFFFF` tombstone sentinel. -/
def wfValues (l : List (Bytes × Option Bytes)) : Prop :=
  ∀ p ∈ l, ∀ value, p.2 = some value → value.length ≤ 2 ^ 32 - 2

/-- Well-formedness of memtable keys for serialization: key lengths fit in a
`u32`. -/
def wfKeys (l : List (Bytes × Option Bytes)) : Prop :=
  ∀ p ∈ l, p.1.length < 2 ^ 32

section EntryScanLemmas

theorem entryScan_buildIndex (key : Bytes) :
    ∀ (entries : List (Bytes × Option Bytes)) (front : Bytes) (s : Nat),
      front.length = s → SortedKeys entries → wfValues entries →
      entryScan (front ++ dataFileBytes entries) key (buildIndex s entries)
        = some (Option.join (btFind key entries)) := by
  intro entries
  induction entries with
  | nil =>
    intro front s hf hs hw
    simp [buildIndex, entryScan, btFind]
  | cons hd tl ih =>
    intro front s hf hs hw
    obtain ⟨k, v⟩ := hd
    simp only [buildIndex, entryScan]
    by_cases h1 : k = key
    · rw [if_pos h1]
      have hsplit : front ++ dataFileBytes ((k, v) :: tl)
          = front ++ write_entry_bytes v ++ dataFileBytes tl := by
        simp [dataFileBytes, List.append_assoc]
      cases v with
      | some value =>
        have hv : value.length ≤ 2 ^ 32 - 2 :=
          hw (k, some value) (List.mem_cons_self _ _) value rfl
        rw [hsplit, ← hf]
        rw [read_value_write_some front value _ hv]
        simp [btFind, h1]
      | none =>
        rw [hsplit, ← hf]
        rw [read_value_write_none front _]
        simp [btFind, h1]
    · rw [if_neg h1]
      by_cases h2 : key < k
      · rw [if_pos h2]
        have hhd : ∀ p ∈ tl, k < p.1 := (List.pairwise_cons.mp hs).1
        have hnone : btFind key tl = none := by
          refine btFind_eq_none_of_forall_ne key tl ?_
          intro p hp he
          exact absurd (he ▸ hhd p hp) (lt_asymm h2)
        simp [btFind, h1, hnone]
      · rw [if_neg h2]
        have hsplit : front ++ dataFileBytes ((k, v) :: tl)
            = (front ++ write_entry_bytes v) ++ dataFileBytes tl := by
          simp [dataFileBytes, List.append_assoc]
        rw [hsplit]
        rw [ih (front ++ write_entry_bytes v) (s + entryRecordLen v)
          (by simp [write_entry_bytes_length, hf]) (List.pairwise_cons.mp hs).2
          (fun p hp => hw p (List.mem_cons_of_mem _ hp))]
        simp [btFind, h1]

theorem entryScan_drop (df key : Bytes) :
    ∀ (idx : List (Bytes × Nat)) (a : Nat),
      (∀ j, j < a → j < idx.length → (idx.getD j ([], 0)).1 < key) →
      entryScan df key (idx.drop a) = entryScan df key idx := by
  intro idx
  induction idx with
  | nil => intro a _; simp
  | cons hd tl ih =>
    intro a hlt
    cases a with
    | zero => simp
    | succ a1 =>
      obtain ⟨k1, o1⟩ := hd
      have hk1 : k1 < key := by
        have := hlt 0 (by omega) (by simp)
        simpa using this
      have hne : k1 ≠ key := ne_of_lt hk1
      have hnlt : ¬key < k1 := lt_asymm hk1
      rw [List.drop_succ_cons]
      rw [ih a1 ?_]
      · simp [entryScan, hne, hnlt]
      · intro j hj hjlen
        have := hlt (j + 1) (by omega) (by simp; omega)
        simpa using this

theorem buildIndex_length (entries : List (Bytes × Option Bytes)) :
    ∀ s, (buildIndex s entries).length = entries.length := by
  induction entries with
  | nil => intro s; rfl
  | cons hd tl ih =>
    intro s
    obtain ⟨k, v⟩ := hd
    simp [buildIndex, ih]

theorem buildIndex_key_getD (entries : List (Bytes × Option Bytes)) :
    ∀ (s j : Nat), j < entries.length →
      ((buildIndex s entries).getD j ([], 0)).1 = (entries.getD j ([], none)).1 := by
  induction entries with
  | nil => intro s j h; simp at h
  | cons hd tl ih =>
    intro s j hj
    obtain ⟨k, v⟩ := hd
    cases j with
    | zero => simp [buildIndex]
    | succ j1 =>
      simp only [buildIndex, List.getD_cons_succ]
      exact ih _ j1 (by simp at hj; omega)

theorem buildIndex_offset_le (entries : List (Bytes × Option Bytes)) :
    ∀ (s : Nat) (p : Bytes × Nat), p ∈ buildIndex s entries →
      p.2 ≤ s + (dataFileBytes entries).length := by
  induction entries with
  | nil => intro s p hp; simp [buildIndex] at hp
  | cons hd tl ih =>
    intro s p hp
    obtain ⟨k, v⟩ := hd
    simp only [buildIndex, List.mem_cons] at hp
    rcases hp with h | h
    · rw [h]
      simp
    · have := ih (s + entryRecordLen v) p h
      rw [dataFileBytes_cons]
      simp only [List.length_append, write_entry_bytes_length]
      omega

theorem wfIndexEntries_buildIndex (entries : List (Bytes × Option Bytes))
    (hk : wfKeys entries) (hd : (dataFileBytes entries).length < 2 ^ 64) :
    wfIndexEntries (buildIndex 0 entries) := by
  intro p hp
  constructor
  · have hmem : p.1 ∈ (buildIndex 0 entries).map Prod.fst := List.mem_map_of_mem _ hp
    rw [buildIndex_map_fst] at hmem
    obtain ⟨q, hq, hq1⟩ := List.mem_map.mp hmem
    rw [← hq1]
    exact hk q hq
  · have := buildIndex_offset_le entries 0 p hp
    omega

end EntryScanLemmas

section SparseSearchLemmas

theorem buildSparse_pairwise (entries : List (Bytes × Option Bytes))
    (hs : SortedKeys entries) :
    (buildSparse 0 0 entries).Pairwise (fun a b => a.1 < b.1) := by
  rw [buildSparse_eq_filter_range]
  refine List.pairwise_map.mpr ?_
  have hfil : ((List.range entries.length).filter
      (fun j => decide ((0 + j) % 100 = 0))).Pairwise (· < ·) :=
    List.Pairwise.sublist (List.filter_sublist _) (List.pairwise_lt_range _)
  refine List.Pairwise.imp_of_mem ?_ hfil
  intro a b ha hb hab
  have ha1 : a < entries.length := List.mem_range.mp (List.mem_of_mem_filter ha)
  have hb1 : b < entries.length := List.mem_range.mp (List.mem_of_mem_filter hb)
  simp only
  rw [List.getD_eq_getElem _ _ ha1, List.getD_eq_getElem _ _ hb1]
  exact List.pairwise_iff_getElem.mp hs a b ha1 hb1 hab

theorem buildSparse_mem_anchor (entries : List (Bytes × Option Bytes))
    (p : Bytes × Nat) (hp : p ∈ buildSparse 0 0 entries) :
    ∃ a, a < entries.length ∧
      p = ((entries.getD a ([], none)).1, indexOffsetUpTo entries a) := by
  rw [buildSparse_eq_filter_range] at hp
  obtain ⟨j, hj, hj2⟩ := List.mem_map.mp hp
  have hjr : j < entries.length := List.mem_range.mp (List.mem_of_mem_filter hj)
  refine ⟨j, hjr, ?_⟩
  rw [← hj2]
  simp

theorem findIdx?_some_getD {α : Type} (p : α → Bool) (l : List α) (i : Nat) (d : α)
    (h : l.findIdx? p = some i) : i < l.length ∧ p (l.getD i d) = true := by
  induction l generalizing i with
  | nil => simp [List.findIdx?_nil] at h
  | cons a tl ih =>
    by_cases hpa : p a
    · simp [List.findIdx?_cons, hpa] at h
      subst h
      simpa using hpa
    · simp [List.findIdx?_cons, hpa] at h
      obtain ⟨i1, hi1, hi2⟩ := h
      subst hi2
      have hrec := ih i1 hi1
      constructor
      · have hlen := hrec.1
        simp
        omega
      · simpa using hrec.2

theorem countP_lt_eq_takeWhile_length (key : Bytes) (l : List (Bytes × Nat))
    (hp : l.Pairwise (fun a b => a.1 < b.1)) :
    l.countP (fun p => decide (p.1 < key))
      = (l.takeWhile (fun p => decide (p.1 < key))).length := by
  induction l with
  | nil => rfl
  | cons a tl ih =>
    by_cases ha : a.1 < key
    · rw [List.countP_cons_of_pos _ _ (by simpa using ha),
        List.takeWhile_cons_of_pos (by simpa using ha)]
      simp [ih (List.pairwise_cons.mp hp).2]
    · rw [List.countP_cons_of_neg _ _ (by simpa using ha),
        List.takeWhile_cons_of_neg (by simpa using ha)]
      have hzero : tl.countP (fun p => decide (p.1 < key)) = 0 := by
        rw [List.countP_eq_zero]
        intro q hq
        have h2 : a.1 < q.1 := (List.pairwise_cons.mp hp).1 q hq
        simp
        exact le_trans (le_of_not_lt ha) (le_of_lt h2)
      simp [hzero]

theorem sorted_getD_lt (entries : List (Bytes × Option Bytes)) (hs : SortedKeys entries)
    (j a : Nat) (hj : j < a) (ha : a < entries.length) :
    (entries.getD j ([], none)).1 < (entries.getD a ([], none)).1 := by
  have hj2 : j < entries.length := lt_trans hj ha
  rw [List.getD_eq_getElem _ _ hj2, List.getD_eq_getElem _ _ ha]
  exact List.pairwise_iff_getElem.mp hs j a hj2 ha hj

theorem load_fields (m : MemTable) (t : SSTable)
    (h : SSTable.load_from_memtable m = some t) :
    t.data_file = dataFileBytes m.data ∧
    t.index_file = indexFileBytes (buildIndex 0 m.data) ∧
    t.sparse_index = [] := by
  unfold SSTable.load_from_memtable at h
  cases hh : (buildIndex 0 m.data).head? with
  | none => simp [hh] at h
  | some first =>
    cases hl : (buildIndex 0 m.data).getLast? with
    | none => simp [hh, hl] at h
    | some last =>
      simp only [hh, hl] at h
      cases h
      exact ⟨rfl, rfl, rfl⟩

theorem map_indexEntrySize_fst {γ : Type} (l : List (Bytes × γ)) :
    l.map (fun p => indexEntrySize p.1) = (l.map Prod.fst).map indexEntrySize := by
  rw [List.map_map]
  rfl

theorem getD_of_append_left {α : Type} (l tw dw : List α) (h : tw ++ dw = l)
    (n : Nat) (hn : n < tw.length) (d : α) : l.getD n d = tw.getD n d := by
  subst h
  have h2 : n < (tw ++ dw).length := by
    simp only [List.length_append]
    omega
  rw [List.getD_eq_getElem _ _ h2, List.getD_eq_getElem _ _ hn]
  rw [List.getElem_append _ h2]
  simp [hn]

end SparseSearchLemmas

theorem sstable_get_eq_join_btFind (m : MemTable) (t : SSTable)
    (hload : SSTable.load_from_memtable m = some t) (hs : SortedKeys m.data)
    (hwk : wfKeys m.data) (hwv : wfValues m.data)
    (hdata : (dataFileBytes m.data).length < 2 ^ 64) (key : Bytes) :
    t.get key = some (Option.join (btFind key m.data)) := by
  obtain ⟨hdf, hif, hsp⟩ := load_fields m t hload
  have hidxlen : (buildIndex 0 m.data).length = m.data.length := buildIndex_length m.data 0
  have hmain : ∀ a, a ≤ m.data.length →
      (∀ j, j < a → (m.data.getD j ([], none)).1 < key) →
      t.get_from_index_file key (indexOffsetUpTo m.data a)
        = some (Option.join (btFind key m.data)) := by
    intro a ha hlt
    have hsplitIdx : indexFileBytes (buildIndex 0 m.data)
        = indexFileBytes ((buildIndex 0 m.data).take a)
          ++ indexFileBytes ((buildIndex 0 m.data).drop a) := by
      rw [← indexFileBytes_append, List.take_append_drop]
    have htakekeys : ((buildIndex 0 m.data).take a).map Prod.fst
        = (m.data.take a).map Prod.fst := by
      rw [List.map_take, List.map_take, buildIndex_map_fst]
    have htakelen : (indexFileBytes ((buildIndex 0 m.data).take a)).length
        = indexOffsetUpTo m.data a := by
      rw [indexFileBytes_length]
      unfold indexOffsetUpTo
      rw [map_indexEntrySize_fst, htakekeys, ← map_indexEntrySize_fst]
    have hdropa : t.index_file.drop (indexOffsetUpTo m.data a)
        = indexFileBytes ((buildIndex 0 m.data).drop a) := by
      rw [hif, hsplitIdx, ← htakelen, List.drop_left]
    have hposa : indexOffsetUpTo m.data a ≤ t.index_file.length := by
      rw [hif, hsplitIdx]
      calc indexOffsetUpTo m.data a
          = (indexFileBytes ((buildIndex 0 m.data).take a)).length := htakelen.symm
        _ ≤ _ := by simp
    have hwfidx : wfIndexEntries (buildIndex 0 m.data) :=
      wfIndexEntries_buildIndex m.data hwk hdata
    have hwfdrop : wfIndexEntries ((buildIndex 0 m.data).drop a) :=
      fun p hp => hwfidx p (List.drop_subset _ _ hp)
    have hfuel : ((buildIndex 0 m.data).drop a).length < t.index_file.length + 1 := by
      have h1 : ((buildIndex 0 m.data).drop a).length ≤ (buildIndex 0 m.data).length := by
        rw [List.length_drop]
        omega
      have h2 := length_le_indexFileBytes_length (buildIndex 0 m.data)
      rw [hif]
      omega
    unfold SSTable.get_from_index_file
    rw [scan_index_eq_entryScan t key ((buildIndex 0 m.data).drop a)
      (indexOffsetUpTo m.data a) (t.index_file.length + 1) hdropa hposa hwfdrop hfuel]
    rw [entryScan_drop t.data_file key (buildIndex 0 m.data) a ?_]
    · rw [hdf]
      have hfin := entryScan_buildIndex key m.data [] 0 rfl hs hwv
      simpa using hfin
    · intro j hj hjl
      rw [buildIndex_key_getD m.data 0 j (by rwa [hidxlen] at hjl)]
      exact hlt j hj
  unfold SSTable.get
  rw [hsp]
  have hbs : binary_search_by ([] : List (Bytes × Nat)) key = Except.error 0 := rfl
  rw [hbs]
  simp only [if_pos rfl]
  have h0 : indexOffsetUpTo m.data 0 = 0 := indexOffsetUpTo_zero m.data
  rw [← h0]
  exact hmain 0 (Nat.zero_le _) (fun j hj => absurd hj (by omega))

/-- C5: SSTable lookup agrees with the source memtable.  For every sorted,
serializable, non-empty memtable (`load_from_memtable` succeeded) and every
key, `get` returns the found value exactly when the memtable binds the key to
a present value, and returns the missing result (the source's `None`) when the
key is unbound; the underlying index scan stops with the missing result as
soon as a stored key greater than the probe key is read (the `entryScan`
branches in the embedding). -/
theorem sstable_get_agrees_with_memtable (m : MemTable) (t : SSTable)
    (hload : SSTable.load_from_memtable m = some t) (hs : SortedKeys m.data)
    (hwk : wfKeys m.data) (hwv : wfValues m.data)
    (hdata : (dataFileBytes m.data).length < 2 ^ 64) (key : Bytes) :
    (∀ value, btFind key m.data = some (some value) → t.get key = some (some value)) ∧
    (btFind key m.data = none → t.get key = some none) := by
  have h := sstable_get_eq_join_btFind m t hload hs hwk hwv hdata key
  constructor
  · intro value hv
    rw [h, hv]
    rfl
  · intro hv
    rw [h, hv]
    rfl

/-- Witness for C5 on the memtable `{[0] ↦ [7], [2] ↦ [9]}`: the present key
`[0]` is found with its value and the absent key `[1]` is reported missing. -/
theorem sstable_get_agrees_with_memtable_witness :
    ∃ t, SSTable.load_from_memtable ((MemTable.new.insert [0] [7]).insert [2] [9]) = some t ∧
      t.get [0] = some (some [7]) ∧ t.get [1] = some none := by
  have hs : SortedKeys ((MemTable.new.insert [0] [7]).insert [2] [9]).data := by
    simp only [SortedKeys]
    decide
  have hwk : wfKeys ((MemTable.new.insert [0] [7]).insert [2] [9]).data := by
    intro p hp
    fin_cases hp <;> norm_num
  have hwv : wfValues ((MemTable.new.insert [0] [7]).insert [2] [9]).data := by
    intro p hp value hv
    fin_cases hp <;> simp_all <;> subst hv <;> norm_num
  have hdata : (dataFileBytes ((MemTable.new.insert [0] [7]).insert [2] [9]).data).length
      < 2 ^ 64 := by
    norm_num [MemTable.insert, MemTable.new, btFind, btInsert, dataFileBytes,
      write_entry_bytes, toBe]
  have hload : SSTable.load_from_memtable ((MemTable.new.insert [0] [7]).insert [2] [9])
      = some { data_file := dataFileBytes ((MemTable.new.insert [0] [7]).insert [2] [9]).data
               index_file := indexFileBytes (buildIndex 0 ((MemTable.new.insert [0] [7]).insert [2] [9]).data)
               sparse_index := []
               min_key := [0]
               max_key := [2] } := by decide
  refine ⟨_, hload, ?_, ?_⟩
  · exact (sstable_get_agrees_with_memtable _ _ hload hs hwk hwv hdata [0]).1
      [7] (by decide)
  · exact (sstable_get_agrees_with_memtable _ _ hload hs hwk hwv hdata [1]).2
      (by decide)

/-! The LSM engine.  The public engine (`insert`/`remove`/`find`/`flush`)
exercised by the repository's test suite is not present under `src/`; the
definitions below are modelled from the specification (§2, §4.1-§4.4), which
is explicit that the engine must use a THREE-VALUED per-layer lookup.  A
flushed SSTable is represented by its logical content, the sorted
`(key, Option value)` run it was built from (per C5/C6 the on-disk form is a
faithful encoding of exactly this run). -/

/-- Modelled from the spec: the three-valued per-layer lookup result
`{Found(v), Tombstone, Missing}` of §4.1/§4.2 that the engine read path
requires. -/
inductive LookupResult where
  | found : Bytes → LookupResult
  | tombstone : LookupResult
  | missing : LookupResult
  deriving Repr, DecidableEq

/-- Modelled from the spec: three-valued point lookup in one sorted run
(§4.2 step 3: a present record is `Found`, the sentinel record is `Tombstone`,
an absent key is `Missing`). -/
def tableGet3 (tab : List (Bytes × Option Bytes)) (key : Bytes) : LookupResult :=
  match btFind key tab with
  | some (some v) => .found v
  | some none => .tombstone
  | none => .missing

/-- Modelled from the spec: §4.4 gates each SSTable probe on
`min_key ≤ key ≤ max_key` before calling `get`; `min_key`/`max_key` are the
first and last keys of the sorted run (§4.2 step 4). -/
def sstFind (tab : List (Bytes × Option Bytes)) (key : Bytes) : LookupResult :=
  match tab.head?, tab.getLast? with
  | some fst, some lst =>
    if fst.1 ≤ key ∧ key ≤ lst.1 then tableGet3 tab key else .missing
  | _, _ => .missing

/-- Structural worker for `mergeTwo`: the fuel argument is only a structural
termination measure, always called with at least the combined input length, so
every run exhausts the inputs before the fuel. -/
def mergeTwoFuel : Nat → List (Bytes × Option Bytes) → List (Bytes × Option Bytes) →
    List (Bytes × Option Bytes)
  | 0, _, older => older
  | _ + 1, [], older => older
  | _ + 1, newer, [] => newer
  | fuel + 1, (k1, v1) :: r1, (k2, v2) :: r2 =>
    if k1 < k2 then (k1, v1) :: mergeTwoFuel fuel r1 ((k2, v2) :: r2)
    else if k2 < k1 then (k2, v2) :: mergeTwoFuel fuel ((k1, v1) :: r1) r2
    else (k1, v1) :: mergeTwoFuel fuel r1 r2

/-- Modelled from the spec: two-way merge of sorted runs with the newer
(first) run winning on equal keys; §4.3's k-way heap merge with
most-recent-wins tie-breaking computes exactly this, folded over the
newest-first input vector. -/
def mergeTwo (newer older : List (Bytes × Option Bytes)) :
    List (Bytes × Option Bytes) :=
  mergeTwoFuel (newer.length + older.length) newer older

/-- Modelled from the spec: merge a newest-first batch of runs into one. -/
def mergeAll (tables : List (List (Bytes × Option Bytes))) :
    List (Bytes × Option Bytes) :=
  tables.foldr mergeTwo []

/-- Modelled from the spec: §4.3 step c, bottom level only — drop tombstone
records (garbage collection). -/
def dropTombstones (tab : List (Bytes × Option Bytes)) :
    List (Bytes × Option Bytes) :=
  tab.filter (fun p => p.2.isSome)

/-- Modelled from the spec: compaction of one level's tables (newest first)
into a single next-level table; tombstones are preserved at intermediate
levels and dropped at the bottom level. -/
def compact (tables : List (List (Bytes × Option Bytes))) (isBottom : Bool) :
    List (Bytes × Option Bytes) :=
  if isBottom then dropTombstones (mergeAll tables) else mergeAll tables

/-- Modelled from the spec: engine state of §4.4 — one active memtable and the
newest-first level vectors L0/L1/L2.  (The immutable-memtable slot is empty at
every operation boundary by the §4.4 state machine, so it is not carried.)
`droppedShadowedTomb` is ghost instrumentation, never read by any operation:
it records that some bottom-level compaction dropped tombstones while an older
L2 table existed — the situation §9 warns can resurrect stale values. -/
structure Engine where
  memtable : MemTable
  level0 : List (List (Bytes × Option Bytes))
  level1 : List (List (Bytes × Option Bytes))
  level2 : List (List (Bytes × Option Bytes))
  droppedShadowedTomb : Bool
  deriving DecidableEq

namespace Engine

/-- Modelled from the spec: a fresh engine. -/
def new : Engine :=
  { memtable := MemTable.new, level0 := [], level1 := [], level2 := []
    droppedShadowedTomb := false }

/-- Modelled from the spec: first-authoritative-layer rule of §4.4 — the first
layer that answers non-`Missing` decides: `Found v ↦ Some v`,
`Tombstone ↦ None`; all layers `Missing` ↦ `None`. -/
def firstHit : List LookupResult → Option Bytes
  | [] => none
  | .found v :: _ => some v
  | .tombstone :: _ => none
  | .missing :: rest => firstHit rest

/-- Modelled from the spec: `find` probes active memtable, then L0 (newest
first), then L1, then L2. -/
def find (e : Engine) (key : Bytes) : Option Bytes :=
  firstHit (tableGet3 e.memtable.data key
    :: (e.level0 ++ e.level1 ++ e.level2).map (fun tab => sstFind tab key))

/-- Modelled from the spec: `flush` — no-op on an empty memtable; otherwise
seal the memtable as a new L0 run; when a level exceeds 10 runs, compact all
of it into one run of the next level (L2 compaction is at the bottom). -/
def flush (e : Engine) : Engine :=
  if e.memtable.data = [] then e
  else
    let l0 := e.memtable.data :: e.level0
    if 10 < l0.length then
      let l1 := compact l0 false :: e.level1
      if 10 < l1.length then
        { memtable := MemTable.new
          level0 := []
          level1 := []
          level2 := compact l1 true :: e.level2
          droppedShadowedTomb := e.droppedShadowedTomb || !e.level2.isEmpty }
      else
        { memtable := MemTable.new, level0 := [], level1 := l1
          level2 := e.level2, droppedShadowedTomb := e.droppedShadowedTomb }
    else
      { memtable := MemTable.new, level0 := l0, level1 := e.level1
        level2 := e.level2, droppedShadowedTomb := e.droppedShadowedTomb }

/-- Modelled from the spec: `insert` delegates to the memtable and flushes
once `size_bytes` reaches 64 MiB. -/
def insert (e : Engine) (key value : Bytes) : Engine :=
  let e1 : Engine := { e with memtable := e.memtable.insert key value }
  if 64 * 1024 * 1024 ≤ e1.memtable.size_bytes then e1.flush else e1

/-- Modelled from the spec: `remove` delegates a tombstone to the memtable. -/
def remove (e : Engine) (key : Bytes) : Engine :=
  { e with memtable := e.memtable.remove key }

end Engine

/-- An engine operation of the §8 random sequences (`insert`/`remove`/`flush`;
`find` is pure and does not change state). -/
inductive EOp where
  | ins : Bytes → Bytes → EOp
  | rem : Bytes → EOp
  | flush : EOp
  deriving Repr, DecidableEq

/-- Apply one engine operation. -/
def applyEOp (e : Engine) : EOp → Engine
  | .ins k v => e.insert k v
  | .rem k => e.remove k
  | .flush => e.flush

/-- Run an operation sequence from a fresh engine. -/
def execOps (ops : List EOp) : Engine :=
  ops.foldl applyEOp Engine.new

/-- The last-write-wins reference: the value of the most recent `insert` of
`key` since the last `remove` of `key` (`none` if the most recent mutation is
a `remove`, or if `key` was never written). -/
def lastWrite (ops : List EOp) (key : Bytes) : Option Bytes :=
  ops.foldl (fun acc op =>
    match op with
    | .ins k v => if k = key then some v else acc
    | .rem k => if k = key then none else acc
    | .flush => acc) none

/-- All runs held by the engine are sorted and the memtable is sorted. -/
def EngineWf (e : Engine) : Prop :=
  SortedKeys e.memtable.data ∧
  ∀ tab ∈ e.level0 ++ e.level1 ++ e.level2, SortedKeys tab

section MergeLemmas

theorem mergeTwoFuel_fuel_irrel : ∀ (fuel1 fuel2 : Nat)
    (a b : List (Bytes × Option Bytes)),
    a.length + b.length ≤ fuel1 → a.length + b.length ≤ fuel2 →
    mergeTwoFuel fuel1 a b = mergeTwoFuel fuel2 a b := by
  intro fuel1
  induction fuel1 with
  | zero =>
    intro fuel2 a b h1 h2
    have ha : a = [] := List.length_eq_zero.mp (by omega)
    have hb : b = [] := List.length_eq_zero.mp (by omega)
    subst ha
    subst hb
    cases fuel2 <;> rfl
  | succ f1 ih =>
    intro fuel2 a b h1 h2
    cases a with
    | nil => cases fuel2 <;> cases b <;> rfl
    | cons ha ta =>
      cases b with
      | nil =>
        cases fuel2 with
        | zero => simp at h2
        | succ f2 => rfl
      | cons hb tb =>
        cases fuel2 with
        | zero => simp at h2
        | succ f2 =>
          obtain ⟨k1, v1⟩ := ha
          obtain ⟨k2, v2⟩ := hb
          simp only [List.length_cons] at h1 h2
          by_cases hlt : k1 < k2
          · simp only [mergeTwoFuel, if_pos hlt]
            congr 1
            exact ih f2 ta ((k2, v2) :: tb) (by simp; omega) (by simp; omega)
          · by_cases hgt : k2 < k1
            · simp only [mergeTwoFuel, if_neg hlt, if_pos hgt]
              congr 1
              exact ih f2 ((k1, v1) :: ta) tb (by simp; omega) (by simp; omega)
            · simp only [mergeTwoFuel, if_neg hlt, if_neg hgt]
              congr 1
              exact ih f2 ta tb (by omega) (by omega)

theorem mergeTwo_nil_left (older : List (Bytes × Option Bytes)) :
    mergeTwo [] older = older := by
  unfold mergeTwo
  cases older with
  | nil => rfl
  | cons x xs => rfl

theorem mergeTwo_nil_right (newer : List (Bytes × Option Bytes)) :
    mergeTwo newer [] = newer := by
  unfold mergeTwo
  cases newer with
  | nil => rfl
  | cons x xs => rfl

theorem mergeTwo_cons_cons (k1 k2 : Bytes) (v1 v2 : Option Bytes)
    (r1 r2 : List (Bytes × Option Bytes)) :
    mergeTwo ((k1, v1) :: r1) ((k2, v2) :: r2) =
      if k1 < k2 then (k1, v1) :: mergeTwo r1 ((k2, v2) :: r2)
      else if k2 < k1 then (k2, v2) :: mergeTwo ((k1, v1) :: r1) r2
      else (k1, v1) :: mergeTwo r1 r2 := by
  have hstep : mergeTwo ((k1, v1) :: r1) ((k2, v2) :: r2)
      = if k1 < k2 then
          (k1, v1) :: mergeTwoFuel (r1.length + 1 + r2.length) r1 ((k2, v2) :: r2)
        else if k2 < k1 then
          (k2, v2) :: mergeTwoFuel (r1.length + 1 + r2.length) ((k1, v1) :: r1) r2
        else (k1, v1) :: mergeTwoFuel (r1.length + 1 + r2.length) r1 r2 := rfl
  rw [hstep]
  unfold mergeTwo
  by_cases h1 : k1 < k2
  · rw [if_pos h1, if_pos h1]
    congr 1
    exact mergeTwoFuel_fuel_irrel _ _ _ _ (by simp only [List.length_cons]; omega) (by simp only [List.length_cons]; omega)
  · rw [if_neg h1, if_neg h1]
    by_cases h2 : k2 < k1
    · rw [if_pos h2, if_pos h2]
      congr 1
    · rw [if_neg h2, if_neg h2]
      congr 1
      exact mergeTwoFuel_fuel_irrel _ _ _ _ (by omega) (by omega)

theorem mem_mergeTwo : ∀ (a b : List (Bytes × Option Bytes)) (p : Bytes × Option Bytes),
    p ∈ mergeTwo a b → p ∈ a ∨ p ∈ b := by
  intro a
  induction a with
  | nil =>
    intro b p hp
    rw [mergeTwo_nil_left] at hp
    right; exact hp
  | cons ha ta iha =>
    intro b
    induction b with
    | nil =>
      intro p hp
      rw [mergeTwo_nil_right] at hp
      left; exact hp
    | cons hb tb ihb =>
      intro p hp
      obtain ⟨k1, v1⟩ := ha
      obtain ⟨k2, v2⟩ := hb
      rw [mergeTwo_cons_cons] at hp
      by_cases h1 : k1 < k2
      · rw [if_pos h1] at hp
        rcases List.mem_cons.mp hp with h | h
        · left; rw [h]; exact List.mem_cons_self _ _
        · rcases iha _ _ h with h2 | h2
          · left; exact List.mem_cons_of_mem _ h2
          · right; exact h2
      · rw [if_neg h1] at hp
        by_cases h2 : k2 < k1
        · rw [if_pos h2] at hp
          rcases List.mem_cons.mp hp with h | h
          · right; rw [h]; exact List.mem_cons_self _ _
          · rcases ihb _ h with h3 | h3
            · left; exact h3
            · right; exact List.mem_cons_of_mem _ h3
        · rw [if_neg h2] at hp
          rcases List.mem_cons.mp hp with h | h
          · left; rw [h]; exact List.mem_cons_self _ _
          · rcases iha _ _ h with h3 | h3
            · left; exact List.mem_cons_of_mem _ h3
            · right; exact List.mem_cons_of_mem _ h3

theorem sortedKeys_mergeTwo : ∀ (a b : List (Bytes × Option Bytes)),
    SortedKeys a → SortedKeys b → SortedKeys (mergeTwo a b) := by
  intro a
  induction a with
  | nil =>
    intro b _ hb
    rwa [mergeTwo_nil_left]
  | cons ha ta iha =>
    intro b
    induction b with
    | nil =>
      intro hsa _
      rwa [mergeTwo_nil_right]
    | cons hb tb ihb =>
      intro hsa hsb
      obtain ⟨k1, v1⟩ := ha
      obtain ⟨k2, v2⟩ := hb
      rw [mergeTwo_cons_cons]
      have hta : SortedKeys ta := (List.pairwise_cons.mp hsa).2
      have htb : SortedKeys tb := (List.pairwise_cons.mp hsb).2
      have hhd1 : ∀ p ∈ ta, (k1, v1).1 < p.1 := (List.pairwise_cons.mp hsa).1
      have hhd2 : ∀ p ∈ tb, (k2, v2).1 < p.1 := (List.pairwise_cons.mp hsb).1
      by_cases h1 : k1 < k2
      · rw [if_pos h1]
        refine List.pairwise_cons.mpr ⟨?_, iha _ hta hsb⟩
        intro p hp
        rcases mem_mergeTwo _ _ p hp with h | h
        · exact hhd1 p h
        · rcases List.mem_cons.mp h with h3 | h3
          · rw [h3]; exact h1
          · exact lt_trans h1 (hhd2 p h3)
      · rw [if_neg h1]
        by_cases h2 : k2 < k1
        · rw [if_pos h2]
          refine List.pairwise_cons.mpr ⟨?_, ihb hsa htb⟩
          intro p hp
          rcases mem_mergeTwo _ _ p hp with h | h
          · rcases List.mem_cons.mp h with h3 | h3
            · rw [h3]; exact h2
            · exact lt_trans h2 (hhd1 p h3)
          · exact hhd2 p h
        · rw [if_neg h2]
          have heq : k1 = k2 := le_antisymm (le_of_not_lt h2) (le_of_not_lt h1)
          refine List.pairwise_cons.mpr ⟨?_, iha _ hta htb⟩
          intro p hp
          rcases mem_mergeTwo _ _ p hp with h | h
          · exact hhd1 p h
          · rw [heq]; exact hhd2 p h

theorem btFind_mergeTwo (key : Bytes) : ∀ (a b : List (Bytes × Option Bytes)),
    SortedKeys a → SortedKeys b →
    btFind key (mergeTwo a b) = (btFind key a).or (btFind key b) := by
  intro a
  induction a with
  | nil =>
    intro b _ _
    rw [mergeTwo_nil_left]
    simp [btFind]
  | cons ha ta iha =>
    intro b
    induction b with
    | nil =>
      intro hsa _
      rw [mergeTwo_nil_right]
      simp [btFind]
    | cons hb tb ihb =>
      intro hsa hsb
      obtain ⟨k1, v1⟩ := ha
      obtain ⟨k2, v2⟩ := hb
      rw [mergeTwo_cons_cons]
      have hta : SortedKeys ta := (List.pairwise_cons.mp hsa).2
      have htb : SortedKeys tb := (List.pairwise_cons.mp hsb).2
      have hhd1 : ∀ p ∈ ta, (k1, v1).1 < p.1 := (List.pairwise_cons.mp hsa).1
      have hhd2 : ∀ p ∈ tb, (k2, v2).1 < p.1 := (List.pairwise_cons.mp hsb).1
      by_cases h1 : k1 < k2
      · rw [if_pos h1]
        by_cases hk : k1 = key
        · simp [btFind, hk]
        · simp only [btFind, if_neg hk]
          rw [iha _ hta hsb]
          simp [btFind]
      · by_cases h2 : k2 < k1
        · rw [if_neg h1, if_pos h2]
          by_cases hk : k2 = key
          · have hnone : btFind key ((k1, v1) :: ta) = none := by
              refine btFind_eq_none_of_forall_ne key _ ?_
              intro p hp he
              rcases List.mem_cons.mp hp with h3 | h3
              · rw [h3] at he
                simp at he
                rw [he, ← hk] at h2
                exact lt_irrefl _ h2
              · have h4 := hhd1 p h3
                rw [he, ← hk] at h4
                exact lt_asymm h2 h4
            rw [hnone]
            simp [btFind, hk]
          · simp only [btFind, if_neg hk]
            rw [ihb hsa htb]
            simp [btFind]
        · rw [if_neg h1, if_neg h2]
          have heq : k1 = k2 := le_antisymm (le_of_not_lt h2) (le_of_not_lt h1)
          by_cases hk : k1 = key
          · simp [btFind, hk]
          · have hk2 : ¬(k2 = key) := by rw [← heq]; exact hk
            simp only [btFind, if_neg hk, if_neg hk2]
            rw [iha _ hta htb]

theorem sortedKeys_mergeAll : ∀ (ts : List (List (Bytes × Option Bytes))),
    (∀ t ∈ ts, SortedKeys t) → SortedKeys (mergeAll ts) := by
  intro ts
  induction ts with
  | nil => intro _; simp [mergeAll, SortedKeys]
  | cons t ts ih =>
    intro h
    have hstep : mergeAll (t :: ts) = mergeTwo t (mergeAll ts) := rfl
    rw [hstep]
    exact sortedKeys_mergeTwo _ _ (h t (List.mem_cons_self _ _))
      (ih fun q hq => h q (List.mem_cons_of_mem _ hq))

end MergeLemmas

section LayerLemmas

theorem sortedKeys_dropTombstones (tab : List (Bytes × Option Bytes))
    (hs : SortedKeys tab) : SortedKeys (dropTombstones tab) :=
  List.Pairwise.filter _ hs

theorem btFind_dropTombstones (key : Bytes) (tab : List (Bytes × Option Bytes))
    (hs : SortedKeys tab) :
    btFind key (dropTombstones tab)
      = match btFind key tab with
        | some (some x) => some (some x)
        | _ => none := by
  induction tab with
  | nil => simp [dropTombstones, btFind]
  | cons hd tl ih =>
    obtain ⟨k1, v1⟩ := hd
    have hta : SortedKeys tl := (List.pairwise_cons.mp hs).2
    have hhd : ∀ p ∈ tl, (k1, v1).1 < p.1 := (List.pairwise_cons.mp hs).1
    cases v1 with
    | some x =>
      by_cases hk : k1 = key
      · simp [dropTombstones, btFind, hk]
      · simp only [dropTombstones, List.filter_cons, Option.isSome_some, if_pos]
        simp only [btFind, if_neg hk]
        rw [← ih hta]
        simp [dropTombstones]
    | none =>
      by_cases hk : k1 = key
      · have hnone : btFind key (dropTombstones tl) = none := by
          refine btFind_eq_none_of_forall_ne key _ ?_
          intro p hp he
          have hp2 : p ∈ tl := List.mem_of_mem_filter hp
          have h3 := hhd p hp2
          rw [he, ← hk] at h3
          exact lt_irrefl _ h3
        simp [dropTombstones, btFind, hk]
        simpa [dropTombstones] using hnone
      · simp only [dropTombstones, List.filter_cons, Option.isSome_none,
          Bool.false_eq_true, if_neg]
        simp only [btFind, if_neg hk]
        rw [← ih hta]
        simp [dropTombstones]

theorem le_getLast_keys (tab : List (Bytes × Option Bytes)) (hs : SortedKeys tab)
    (last : Bytes × Option Bytes) (hl : tab.getLast? = some last) :
    ∀ p ∈ tab, p.1 ≤ last.1 := by
  induction tab with
  | nil => simp at hl
  | cons hd tl ih =>
    intro p hp
    cases tl with
    | nil =>
      simp at hl
      rcases List.mem_cons.mp hp with h | h
      · rw [h, hl]
      · simp at h
    | cons hd2 tl2 =>
      have hl2 : (hd2 :: tl2).getLast? = some last := by
        rwa [List.getLast?_cons_cons] at hl
      have hs2 : SortedKeys (hd2 :: tl2) := (List.pairwise_cons.mp hs).2
      rcases List.mem_cons.mp hp with h | h
      · have h1 : hd.1 < hd2.1 :=
          (List.pairwise_cons.mp hs).1 hd2 (List.mem_cons_self _ _)
        have h2 : hd2.1 ≤ last.1 := ih hs2 hl2 hd2 (List.mem_cons_self _ _)
        rw [h]
        exact le_of_lt (lt_of_lt_of_le h1 h2)
      · exact ih hs2 hl2 p h

theorem sstFind_eq_tableGet3 (tab : List (Bytes × Option Bytes))
    (hs : SortedKeys tab) (key : Bytes) :
    sstFind tab key = tableGet3 tab key := by
  cases tab with
  | nil => simp [sstFind, tableGet3, btFind]
  | cons hd tl =>
    obtain ⟨last, hlast⟩ : ∃ p, (hd :: tl).getLast? = some p :=
      Option.isSome_iff_exists.mp (by simp [List.getLast?_isSome])
    have hhead : (hd :: tl).head? = some hd := rfl
    simp only [sstFind, hhead, hlast]
    by_cases hin : hd.1 ≤ key ∧ key ≤ last.1
    · rw [if_pos hin]
    · rw [if_neg hin]
      have hnone : btFind key (hd :: tl) = none := by
        refine btFind_eq_none_of_forall_ne key _ ?_
        intro p hp he
        apply hin
        constructor
        · rcases List.mem_cons.mp hp with h | h
          · rw [← he, h]
          · have h2 := (List.pairwise_cons.mp hs).1 p h
            rw [he] at h2
            exact le_of_lt h2
        · have h3 := le_getLast_keys _ hs last hlast p hp
          rwa [he] at h3
      simp [tableGet3, hnone]

/-- Combination of two layers' lookup results: the newer layer decides unless
it is `Missing`. -/
def combineR (a b : LookupResult) : LookupResult :=
  match a with
  | .missing => b
  | r => r

theorem firstHit_append (xs ys : List LookupResult) :
    Engine.firstHit (xs ++ ys)
      = Engine.firstHit ((xs.foldr combineR .missing) :: ys) := by
  induction xs with
  | nil => rfl
  | cons x xs ih =>
    cases x with
    | found v => rfl
    | tombstone => rfl
    | missing =>
      simpa [Engine.firstHit, combineR] using ih

theorem tableGet3_mergeAll (key : Bytes) :
    ∀ (ts : List (List (Bytes × Option Bytes))), (∀ t ∈ ts, SortedKeys t) →
    tableGet3 (mergeAll ts) key
      = (ts.map (fun t => tableGet3 t key)).foldr combineR .missing := by
  intro ts
  induction ts with
  | nil => intro _; simp [mergeAll, tableGet3, btFind]
  | cons t ts ih =>
    intro h
    have hall : ∀ q ∈ ts, SortedKeys q := fun q hq => h q (List.mem_cons_of_mem _ hq)
    have hms : SortedKeys (mergeAll ts) := sortedKeys_mergeAll ts hall
    have hstep : mergeAll (t :: ts) = mergeTwo t (mergeAll ts) := rfl
    rw [hstep]
    rw [List.map_cons, List.foldr_cons, ← ih hall]
    unfold tableGet3
    rw [btFind_mergeTwo key t (mergeAll ts) (h t (List.mem_cons_self _ _)) hms]
    cases hbt : btFind key t with
    | some v => cases v <;> simp [combineR, hbt]
    | none => simp [combineR, hbt]

theorem tableGet3_dropTombstones (key : Bytes) (tab : List (Bytes × Option Bytes))
    (hs : SortedKeys tab) :
    tableGet3 (dropTombstones tab) key
      = match tableGet3 tab key with
        | .tombstone => .missing
        | r => r := by
  unfold tableGet3
  rw [btFind_dropTombstones key tab hs]
  cases btFind key tab with
  | none => simp
  | some v => cases v <;> simp

end LayerLemmas

section FlushLemmas

theorem flush_eq_noop (e : Engine) (hm : e.memtable.data = []) : e.flush = e := by
  unfold Engine.flush
  rw [if_pos hm]

theorem flush_eq_push (e : Engine) (hm : ¬e.memtable.data = [])
    (h10 : ¬10 < (e.memtable.data :: e.level0).length) :
    e.flush = { memtable := MemTable.new, level0 := e.memtable.data :: e.level0
                level1 := e.level1, level2 := e.level2
                droppedShadowedTomb := e.droppedShadowedTomb } := by
  unfold Engine.flush
  rw [if_neg hm]
  simp only [if_neg h10]

theorem flush_eq_compact0 (e : Engine) (hm : ¬e.memtable.data = [])
    (h10 : 10 < (e.memtable.data :: e.level0).length)
    (h11 : ¬10 < (compact (e.memtable.data :: e.level0) false :: e.level1).length) :
    e.flush = { memtable := MemTable.new, level0 := []
                level1 := compact (e.memtable.data :: e.level0) false :: e.level1
                level2 := e.level2
                droppedShadowedTomb := e.droppedShadowedTomb } := by
  unfold Engine.flush
  rw [if_neg hm]
  simp only [if_pos h10, if_neg h11]

theorem flush_eq_compact1 (e : Engine) (hm : ¬e.memtable.data = [])
    (h10 : 10 < (e.memtable.data :: e.level0).length)
    (h11 : 10 < (compact (e.memtable.data :: e.level0) false :: e.level1).length) :
    e.flush = { memtable := MemTable.new, level0 := [], level1 := []
                level2 := compact (compact (e.memtable.data :: e.level0) false :: e.level1) true
                  :: e.level2
                droppedShadowedTomb := e.droppedShadowedTomb || !e.level2.isEmpty } := by
  unfold Engine.flush
  rw [if_neg hm]
  simp only [if_pos h10, if_pos h11]

theorem engineWf_flush (e : Engine) (hwf : EngineWf e) : EngineWf e.flush := by
  have hmem := hwf.1
  have htabs := hwf.2
  have hl0 : ∀ tab ∈ e.level0, SortedKeys tab := fun tab h =>
    htabs tab (by simp [h])
  have hl1 : ∀ tab ∈ e.level1, SortedKeys tab := fun tab h =>
    htabs tab (by simp [h])
  have hl2 : ∀ tab ∈ e.level2, SortedKeys tab := fun tab h =>
    htabs tab (by simp [h])
  have hml0 : ∀ tab ∈ e.memtable.data :: e.level0, SortedKeys tab := by
    intro tab h
    rcases List.mem_cons.mp h with h | h
    · rw [h]; exact hmem
    · exact hl0 tab h
  have hC : SortedKeys (compact (e.memtable.data :: e.level0) false) := by
    unfold compact
    simp only [Bool.false_eq_true, if_neg]
    exact sortedKeys_mergeAll _ hml0
  have hCl1 : ∀ tab ∈ compact (e.memtable.data :: e.level0) false :: e.level1,
      SortedKeys tab := by
    intro tab h
    rcases List.mem_cons.mp h with h | h
    · rw [h]; exact hC
    · exact hl1 tab h
  have hD : SortedKeys (compact (compact (e.memtable.data :: e.level0) false
      :: e.level1) true) := by
    unfold compact
    simp only [if_pos]
    exact sortedKeys_dropTombstones _ (sortedKeys_mergeAll _ hCl1)
  by_cases hm : e.memtable.data = []
  · rw [flush_eq_noop e hm]; exact hwf
  · by_cases h10 : 10 < (e.memtable.data :: e.level0).length
    · by_cases h11 : 10 < (compact (e.memtable.data :: e.level0) false :: e.level1).length
      · rw [flush_eq_compact1 e hm h10 h11]
        refine ⟨by simp [MemTable.new, SortedKeys], ?_⟩
        intro tab h
        simp only [List.nil_append, List.mem_cons] at h
        rcases h with h | h
        · rw [h]; exact hD
        · exact hl2 tab h
      · rw [flush_eq_compact0 e hm h10 h11]
        refine ⟨by simp [MemTable.new, SortedKeys], ?_⟩
        intro tab h
        simp only [List.nil_append, List.cons_append, List.mem_cons,
          List.mem_append] at h
        rcases h with h | h | h
        · rw [h]; exact hC
        · exact hl1 tab h
        · exact hl2 tab h
    · rw [flush_eq_push e hm h10]
      refine ⟨by simp [MemTable.new, SortedKeys], ?_⟩
      intro tab h
      simp only [List.cons_append, List.mem_cons, List.mem_append] at h
      rcases h with h | (h | h) | h
      · rw [h]; exact hmem
      · exact hl0 tab h
      · exact hl1 tab h
      · exact hl2 tab h

theorem find_eq_tableGet3_layers (e : Engine) (hwf : EngineWf e) (key : Bytes) :
    e.find key = Engine.firstHit (tableGet3 e.memtable.data key
      :: (e.level0 ++ e.level1 ++ e.level2).map (fun tab => tableGet3 tab key)) := by
  unfold Engine.find
  congr 1
  congr 1
  refine List.map_congr_left ?_
  intro tab htab
  exact sstFind_eq_tableGet3 tab (hwf.2 tab htab) key


theorem compact_false (ts : List (List (Bytes × Option Bytes))) :
    compact ts false = mergeAll ts := by
  simp [compact]

theorem compact_true (ts : List (List (Bytes × Option Bytes))) :
    compact ts true = dropTombstones (mergeAll ts) := by
  simp [compact]

theorem firstHit_missing_cons (rest : List LookupResult) :
    Engine.firstHit (.missing :: rest) = Engine.firstHit rest := rfl

theorem memtable_new_data : MemTable.new.data = [] := rfl

theorem tableGet3_nil (key : Bytes) : tableGet3 [] key = .missing := rfl

theorem find_flush (e : Engine) (hwf : EngineWf e)
    (hflag : e.flush.droppedShadowedTomb = false) (key : Bytes) :
    e.flush.find key = e.find key := by
  have hmem := hwf.1
  have hml0 : ∀ tab ∈ e.memtable.data :: e.level0, SortedKeys tab := by
    intro tab h
    rcases List.mem_cons.mp h with h | h
    · rw [h]; exact hmem
    · exact hwf.2 tab (by simp [h])
  have hC : SortedKeys (compact (e.memtable.data :: e.level0) false) := by
    rw [compact_false]
    exact sortedKeys_mergeAll _ hml0
  have hCl1 : ∀ tab ∈ compact (e.memtable.data :: e.level0) false :: e.level1,
      SortedKeys tab := by
    intro tab h
    rcases List.mem_cons.mp h with h | h
    · rw [h]; exact hC
    · exact hwf.2 tab (by simp [h])
  rw [find_eq_tableGet3_layers e.flush (engineWf_flush e hwf) key,
      find_eq_tableGet3_layers e hwf key]
  by_cases hm : e.memtable.data = []
  · rw [flush_eq_noop e hm]
  · by_cases h10 : 10 < (e.memtable.data :: e.level0).length
    · by_cases h11 : 10 < (compact (e.memtable.data :: e.level0) false :: e.level1).length
      · have hL2 : e.level2 = [] := by
          rw [flush_eq_compact1 e hm h10 h11] at hflag
          simp only at hflag
          cases hE : e.level2 with
          | nil => rfl
          | cons a b =>
            rw [hE] at hflag
            simp at hflag
        rw [flush_eq_compact1 e hm h10 h11]
        dsimp only
        rw [memtable_new_data, tableGet3_nil, firstHit_missing_cons, hL2]
        simp only [List.nil_append, List.append_nil, List.map_cons, List.map_nil]
        rw [compact_true, tableGet3_dropTombstones key _ (sortedKeys_mergeAll _ hCl1)]
        have hright1 : tableGet3 e.memtable.data key
            :: (e.level0 ++ e.level1).map (fun tab => tableGet3 tab key)
            = ((e.memtable.data :: e.level0).map (fun tab => tableGet3 tab key))
              ++ e.level1.map (fun tab => tableGet3 tab key) := by
          simp
        rw [hright1, firstHit_append, ← tableGet3_mergeAll key _ hml0]
        have hright2 : tableGet3 (mergeAll (e.memtable.data :: e.level0)) key
            :: e.level1.map (fun tab => tableGet3 tab key)
            = ((compact (e.memtable.data :: e.level0) false :: e.level1).map
                (fun tab => tableGet3 tab key)) ++ [] := by
          simp [compact_false]
        rw [hright2, firstHit_append, ← tableGet3_mergeAll key _ hCl1]
        cases tableGet3 (mergeAll (compact (e.memtable.data :: e.level0) false :: e.level1)) key
          <;> simp [Engine.firstHit]
      · rw [flush_eq_compact0 e hm h10 h11]
        dsimp only
        rw [memtable_new_data, tableGet3_nil, firstHit_missing_cons]
        have hleft : (([] : List (List (Bytes × Option Bytes)))
              ++ (compact (e.memtable.data :: e.level0) false :: e.level1) ++ e.level2)
            = compact (e.memtable.data :: e.level0) false :: (e.level1 ++ e.level2) := by
          simp
        rw [hleft, List.map_cons, compact_false, tableGet3_mergeAll key _ hml0]
        have hright : tableGet3 e.memtable.data key
            :: (e.level0 ++ e.level1 ++ e.level2).map (fun tab => tableGet3 tab key)
            = ((e.memtable.data :: e.level0).map (fun tab => tableGet3 tab key))
              ++ (e.level1 ++ e.level2).map (fun tab => tableGet3 tab key) := by
          simp
        rw [hright, firstHit_append]
    · rw [flush_eq_push e hm h10]
      dsimp only
      rw [memtable_new_data, tableGet3_nil, firstHit_missing_cons]
      have hl : (e.memtable.data :: e.level0) ++ e.level1 ++ e.level2
          = e.memtable.data :: (e.level0 ++ e.level1 ++ e.level2) := by
        simp
      rw [hl, List.map_cons]

section StepLemmas

theorem flag_flush_mono (e : Engine) (h : e.droppedShadowedTomb = true) :
    e.flush.droppedShadowedTomb = true := by
  by_cases hm : e.memtable.data = []
  · rwa [flush_eq_noop e hm]
  · by_cases h10 : 10 < (e.memtable.data :: e.level0).length
    · by_cases h11 : 10 < (compact (e.memtable.data :: e.level0) false :: e.level1).length
      · rw [flush_eq_compact1 e hm h10 h11]
        simp [h]
      · rw [flush_eq_compact0 e hm h10 h11]
        exact h
    · rw [flush_eq_push e hm h10]
      exact h

theorem flag_applyEOp_mono (e : Engine) (op : EOp)
    (h : e.droppedShadowedTomb = true) :
    (applyEOp e op).droppedShadowedTomb = true := by
  cases op with
  | ins k v =>
    unfold applyEOp Engine.insert
    by_cases hsz : 64 * 1024 * 1024 ≤ (e.memtable.insert k v).size_bytes
    · simp only [if_pos hsz]
      exact flag_flush_mono _ h
    · simp only [if_neg hsz]
      exact h
  | rem k => exact h
  | flush => exact flag_flush_mono e h

theorem flag_foldl_mono (ops : List EOp) : ∀ (e : Engine),
    e.droppedShadowedTomb = true →
    (ops.foldl applyEOp e).droppedShadowedTomb = true := by
  induction ops with
  | nil => intro e h; exact h
  | cons op rest ih =>
    intro e h
    exact ih (applyEOp e op) (flag_applyEOp_mono e op h)

theorem engineWf_memtable_set (e : Engine) (m : MemTable) (hwf : EngineWf e)
    (hm : SortedKeys m.data) : EngineWf { e with memtable := m } :=
  ⟨hm, hwf.2⟩

theorem find_memtable_insert (e : Engine) (k v key : Bytes) :
    Engine.find { e with memtable := e.memtable.insert k v } key
      = if k = key then some v else e.find key := by
  by_cases hk : k = key
  · rw [if_pos hk]
    subst hk
    unfold Engine.find
    have hfound : tableGet3 (e.memtable.insert k v).data k = .found v := by
      unfold tableGet3
      rw [show (e.memtable.insert k v).data = btInsert k (some v) e.memtable.data from rfl,
        btFind_btInsert_self]
    rw [hfound]
    rfl
  · rw [if_neg hk]
    unfold Engine.find
    have hsame : tableGet3 (e.memtable.insert k v).data key
        = tableGet3 e.memtable.data key := by
      unfold tableGet3
      rw [show (e.memtable.insert k v).data = btInsert k (some v) e.memtable.data from rfl]
      rw [btFind_btInsert_ne k key (some v) e.memtable.data hk]
    rw [hsame]

theorem find_memtable_remove (e : Engine) (k key : Bytes) :
    Engine.find (e.remove k) key = if k = key then none else e.find key := by
  by_cases hk : k = key
  · rw [if_pos hk]
    subst hk
    unfold Engine.find Engine.remove
    have htomb : tableGet3 (e.memtable.remove k).data k = .tombstone := by
      unfold tableGet3
      rw [show (e.memtable.remove k).data = btInsert k none e.memtable.data from rfl,
        btFind_btInsert_self]
    rw [htomb]
    rfl
  · rw [if_neg hk]
    unfold Engine.find Engine.remove
    have hsame : tableGet3 (e.memtable.remove k).data key
        = tableGet3 e.memtable.data key := by
      unfold tableGet3
      rw [show (e.memtable.remove k).data = btInsert k none e.memtable.data from rfl]
      rw [btFind_btInsert_ne k key none e.memtable.data hk]
    rw [hsame]

end StepLemmas

/-- One step of the last-write-wins reference model. -/
def stepModel (M : Bytes → Option Bytes) : EOp → (Bytes → Option Bytes)
  | .ins k v => fun key => if k = key then some v else M key
  | .rem k => fun key => if k = key then none else M key
  | .flush => M

theorem applyEOp_step (e : Engine) (op : EOp) (hwf : EngineWf e)
    (hflag : (applyEOp e op).droppedShadowedTomb = false) :
    EngineWf (applyEOp e op) ∧
    ∀ key, (applyEOp e op).find key
      = stepModel (fun key => e.find key) op key := by
  cases op with
  | ins k v =>
    have hs2 : SortedKeys (e.memtable.insert k v).data :=
      sortedKeys_btInsert k (some v) e.memtable.data hwf.1
    have hwf1 : EngineWf { e with memtable := e.memtable.insert k v } :=
      engineWf_memtable_set e _ hwf hs2
    unfold applyEOp Engine.insert at hflag ⊢
    by_cases hsz : 64 * 1024 * 1024 ≤ (e.memtable.insert k v).size_bytes
    · simp only [if_pos hsz] at hflag ⊢
      refine ⟨engineWf_flush _ hwf1, ?_⟩
      intro key
      rw [find_flush _ hwf1 hflag key]
      rw [find_memtable_insert e k v key]
      rfl
    · simp only [if_neg hsz]
      refine ⟨hwf1, ?_⟩
      intro key
      rw [find_memtable_insert e k v key]
      rfl
  | rem k =>
    have hs2 : SortedKeys (e.memtable.remove k).data :=
      sortedKeys_btInsert k none e.memtable.data hwf.1
    refine ⟨engineWf_memtable_set e _ hwf hs2, ?_⟩
    intro key
    rw [show applyEOp e (EOp.rem k) = e.remove k from rfl]
    rw [find_memtable_remove e k key]
    rfl
  | flush =>
    refine ⟨engineWf_flush e hwf, ?_⟩
    intro key
    exact find_flush e hwf hflag key

theorem find_foldl (ops : List EOp) : ∀ (e : Engine) (M : Bytes → Option Bytes),
    EngineWf e → (∀ key, e.find key = M key) →
    (ops.foldl applyEOp e).droppedShadowedTomb = false →
    ∀ key, (ops.foldl applyEOp e).find key = (ops.foldl stepModel M) key := by
  induction ops with
  | nil =>
    intro e M _ hM _ key
    exact hM key
  | cons op rest ih =>
    intro e M hwf hM hflag key
    have hflag1 : (applyEOp e op).droppedShadowedTomb = false := by
      by_contra hcon
      have h1 : (applyEOp e op).droppedShadowedTomb = true := by
        cases hcase : (applyEOp e op).droppedShadowedTomb with
        | true => rfl
        | false => exact absurd hcase hcon
      have h2 := flag_foldl_mono rest (applyEOp e op) h1
      rw [List.foldl_cons] at hflag
      rw [h2] at hflag
      simp at hflag
    have hstep := applyEOp_step e op hwf hflag1
    rw [List.foldl_cons] at hflag ⊢
    rw [List.foldl_cons]
    refine ih (applyEOp e op) (stepModel M op) hstep.1 ?_ hflag key
    intro key2
    rw [hstep.2 key2]
    cases op with
    | ins k v =>
      simp only [stepModel]
      by_cases hk : k = key2
      · simp [hk]
      · simp [hk, hM key2]
    | rem k =>
      simp only [stepModel]
      by_cases hk : k = key2
      · simp [hk]
      · simp [hk, hM key2]
    | flush =>
      simp only [stepModel]
      exact hM key2

theorem foldl_stepModel_apply (ops : List EOp) : ∀ (M : Bytes → Option Bytes) (key : Bytes),
    (ops.foldl stepModel M) key
      = ops.foldl (fun acc op => match op with
          | EOp.ins k v => if k = key then some v else acc
          | EOp.rem k => if k = key then none else acc
          | EOp.flush => acc) (M key) := by
  induction ops with
  | nil => intro M key; rfl
  | cons op rest ih =>
    intro M key
    rw [List.foldl_cons, List.foldl_cons, ih]
    congr 1
    cases op <;> rfl

theorem lastWrite_eq_foldl_stepModel (ops : List EOp) (key : Bytes) :
    (ops.foldl stepModel (fun _ => none)) key = lastWrite ops key := by
  unfold lastWrite
  exact foldl_stepModel_apply ops (fun _ => none) key

/-- `btInsert` never returns the empty list, so the memtable is non-empty
right after an insert. -/
theorem btInsert_ne_nil (k : Bytes) (v : Option Bytes)
    (l : List (Bytes × Option Bytes)) : btInsert k v l ≠ [] := by
  cases l with
  | nil => simp [btInsert]
  | cons hd tl =>
    obtain ⟨k1, v1⟩ := hd
    unfold btInsert
    by_cases h1 : k < k1
    · simp [h1]
    · by_cases h2 : k = k1
      · simp [h1, h2]
      · simp [h1, h2]

/-- Number of memtable seals (flush events) one operation performs from state
`e`: an explicit `flush` seals iff the memtable is non-empty, an `insert`
seals iff it drives `size_bytes` to the 64 MiB threshold, a `remove` never
seals. -/
def sealsOf (e : Engine) : EOp → Nat
  | EOp.ins k v => if 64 * 1024 * 1024 ≤ (e.memtable.insert k v).size_bytes then 1 else 0
  | EOp.rem _ => 0
  | EOp.flush => if e.memtable.data = [] then 0 else 1

/-- Total number of flush events (memtable seals, explicit or triggered by the
insert threshold) performed by a run of `ops` from state `e`. -/
def flushEventsFrom : Engine → List EOp → Nat
  | _, [] => 0
  | e, op :: rest => sealsOf e op + flushEventsFrom (applyEOp e op) rest

/-- Seal budget already consumed by the level hierarchy: each L2 run took a
full L1→L2 compaction (121 seals), each L1 run an L0→L1 compaction (11
seals), each L0 run one seal. -/
def levelWeight (e : Engine) : Nat :=
  121 * e.level2.length + 11 * e.level1.length + e.level0.length

/-- Invariant for the flush-count bound: ghost flag clear and both upper
levels within their 10-run capacity. -/
def FlushInv (e : Engine) : Prop :=
  e.droppedShadowedTomb = false ∧ e.level0.length ≤ 10 ∧ e.level1.length ≤ 10

theorem flush_flushInv (e : Engine) (h : FlushInv e) (hm : ¬e.memtable.data = [])
    (hw : levelWeight e + 1 ≤ 241) :
    FlushInv e.flush ∧ levelWeight e.flush ≤ levelWeight e + 1 := by
  obtain ⟨hflag, h0, h1⟩ := h
  unfold levelWeight at hw
  by_cases h10 : 10 < (e.memtable.data :: e.level0).length
  · by_cases h11 : 10 < (compact (e.memtable.data :: e.level0) false :: e.level1).length
    · have ha2 : e.level2 = [] := by
        have ha : e.level2.length = 0 := by
          simp only [List.length_cons] at h10 h11
          omega
        exact List.length_eq_zero.mp ha
      rw [flush_eq_compact1 e hm h10 h11]
      unfold FlushInv levelWeight
      simp only [List.length_cons] at h10 h11
      simp [hflag, ha2]
      omega
    · rw [flush_eq_compact0 e hm h10 h11]
      unfold FlushInv levelWeight
      simp only [List.length_cons] at h10 h11
      simp [hflag]
      omega
  · rw [flush_eq_push e hm h10]
    unfold FlushInv levelWeight
    simp only [List.length_cons] at h10
    simp [hflag]
    omega

theorem applyEOp_flushInv (e : Engine) (op : EOp) (h : FlushInv e)
    (hw : levelWeight e + sealsOf e op ≤ 241) :
    FlushInv (applyEOp e op) ∧
      levelWeight (applyEOp e op) ≤ levelWeight e + sealsOf e op := by
  cases op with
  | ins k v =>
    show FlushInv (e.insert k v) ∧ levelWeight (e.insert k v) ≤ _
    simp only [Engine.insert]
    by_cases ht : 64 * 1024 * 1024 ≤ (e.memtable.insert k v).size_bytes
    · simp only [if_pos ht]
      have hseal : sealsOf e (EOp.ins k v) = 1 := by
        simp [sealsOf, ht]
      rw [hseal] at hw ⊢
      have hinv1 : FlushInv { e with memtable := e.memtable.insert k v } :=
        ⟨h.1, h.2.1, h.2.2⟩
      have hw1 : levelWeight { e with memtable := e.memtable.insert k v } + 1 ≤ 241 := hw
      have hm1 : ¬({ e with memtable := e.memtable.insert k v } : Engine).memtable.data
          = [] := by
        show ¬(e.memtable.insert k v).data = []
        unfold MemTable.insert
        exact btInsert_ne_nil k (some v) e.memtable.data
      exact flush_flushInv _ hinv1 hm1 hw1
    · simp only [if_neg ht]
      have hseal : sealsOf e (EOp.ins k v) = 0 := by
        simp [sealsOf, ht]
      rw [hseal]
      exact ⟨⟨h.1, h.2.1, h.2.2⟩, le_refl _⟩
  | rem k =>
    show FlushInv (e.remove k) ∧ levelWeight (e.remove k) ≤ _
    refine ⟨⟨h.1, h.2.1, h.2.2⟩, ?_⟩
    show levelWeight e ≤ levelWeight e + sealsOf e (EOp.rem k)
    exact Nat.le_add_right _ _
  | flush =>
    show FlushInv e.flush ∧ levelWeight e.flush ≤ _
    by_cases hm : e.memtable.data = []
    · rw [flush_eq_noop e hm]
      have hseal : sealsOf e EOp.flush = 0 := by
        simp [sealsOf, hm]
      rw [hseal]
      exact ⟨h, le_refl _⟩
    · have hseal : sealsOf e EOp.flush = 1 := by
        simp [sealsOf, hm]
      rw [hseal] at hw ⊢
      exact flush_flushInv e h hm hw

theorem flushInv_foldl (ops : List EOp) : ∀ (e : Engine), FlushInv e →
    levelWeight e + flushEventsFrom e ops ≤ 241 →
    FlushInv (ops.foldl applyEOp e) := by
  induction ops with
  | nil =>
    intro e h hw
    simpa using h
  | cons op rest ih =>
    intro e h hw
    rw [List.foldl_cons]
    have hdec : flushEventsFrom e (op :: rest)
        = sealsOf e op + flushEventsFrom (applyEOp e op) rest := rfl
    rw [hdec] at hw
    have hstep := applyEOp_flushInv e op h (by omega)
    have h2 := hstep.2
    refine ih (applyEOp e op) hstep.1 ?_
    omega

/-- Safe class for the amended C1: a run performing at most 241 flush events
(explicit flushes of a non-empty memtable plus threshold-triggered flushes
inside `insert`) never reaches a bottom-level compaction while an older L2
table exists, so the ghost flag stays `false` — the hypothesis of the amended
last-write-wins theorem.  (The counterexample sequence performs 242.) -/
theorem flag_false_of_le_241_seals (ops : List EOp)
    (h : flushEventsFrom Engine.new ops ≤ 241) :
    (execOps ops).droppedShadowedTomb = false := by
  have h0 : FlushInv Engine.new := ⟨rfl, by simp [Engine.new], by simp [Engine.new]⟩
  have hw : levelWeight Engine.new + flushEventsFrom Engine.new ops ≤ 241 := by
    unfold levelWeight Engine.new
    simpa using h
  exact (flushInv_foldl ops Engine.new h0 hw).1

/-- C1 counterexample input: one write of the probe key, 121 flush rounds (so
the key's live value reaches L2 through a first bottom-level compaction), then
`remove` of the key and 121 more flush rounds, whose final bottom-level
compaction drops the key's tombstone while the older L2 table still holds the
value. -/
def c1RoundsA : List EOp :=
  [EOp.ins [0] [1]] ++ (List.replicate 121 [EOp.ins [9] [1], EOp.flush]).flatten

/-- Second half of the C1 counterexample input. -/
def c1RoundsB : List EOp :=
  [EOp.rem [0]] ++ (List.replicate 121 [EOp.ins [9] [1], EOp.flush]).flatten

/-- The full C1 counterexample operation sequence (486 operations, of which
242 are flushes). -/
def c1CexOps : List EOp := c1RoundsA ++ c1RoundsB

/-- Engine state reached after `c1RoundsA`: the probe key's value lives in the
single L2 table. -/
def c1MidState : Engine :=
  { memtable := { data := [], size_bytes := 0 }, level0 := [], level1 := []
    level2 := [[([0], some [1]), ([9], some [1])]], droppedShadowedTomb := false }

/-- Engine state reached after all of `c1CexOps`: the second bottom-level
compaction dropped the probe key's tombstone (ghost flag set), leaving the
stale value exposed in the older L2 table. -/
def c1EndState : Engine :=
  { memtable := { data := [], size_bytes := 0 }, level0 := [], level1 := []
    level2 := [[([9], some [1])], [([0], some [1]), ([9], some [1])]]
    droppedShadowedTomb := true }

set_option maxRecDepth 200000 in
/-- C1 counterexample: on the concrete sequence `c1CexOps`, the last mutation
of key `[0]` is a `remove` with no later insert, yet `find([0])` returns
`Some [1]` — the spec-modelled engine resurrects a deleted key once a second
bottom-level compaction drops a tombstone that still shadowed an older L2
value, so the claim as stated is false. -/
theorem engine_find_resurrects_deleted_key :
    (execOps c1CexOps).find [0] = some [1] ∧ lastWrite c1CexOps [0] = none := by
  constructor
  · have h1 : List.foldl applyEOp Engine.new c1RoundsA = c1MidState := by decide
    have h2 : List.foldl applyEOp c1MidState c1RoundsB = c1EndState := by decide
    have h : execOps c1CexOps = c1EndState := by
      unfold execOps c1CexOps
      rw [List.foldl_append, h1, h2]
    rw [h]
    decide
  · decide

/-- C1 (amended): last write wins through the public read path for every
sequence of `insert`/`remove`/`flush` operations in which no bottom-level
compaction runs while an older L2 table exists (the ghost flag
`droppedShadowedTomb` of the final state stays `false` — the restriction the
counterexample forces; by `flag_false_of_le_241_seals` it holds for every
sequence with at most 241 flush events, while the counterexample needs 242):
`find(k)` returns exactly the value of the most recent `insert(k, _)` since
the last `remove(k)`, and `none` when the most recent mutation of `k` is a
`remove` — in particular a `find` after `insert(k, v)` with no later mutation
of `k` observes `Some v`, and after `remove(k)` observes `none`, across all
flush and compaction boundaries. -/
theorem engine_find_eq_lastWrite (ops : List EOp)
    (hflag : (execOps ops).droppedShadowedTomb = false) (key : Bytes) :
    (execOps ops).find key = lastWrite ops key := by
  have hwf0 : EngineWf Engine.new := by
    constructor
    · simp [Engine.new, MemTable.new, SortedKeys]
    · intro tab h
      simp [Engine.new] at h
  have hM0 : ∀ k, Engine.new.find k = (fun _ : Bytes => (none : Option Bytes)) k :=
    fun k => rfl
  have h := find_foldl ops Engine.new (fun _ => none) hwf0 hM0 hflag key
  unfold execOps
  rw [h, lastWrite_eq_foldl_stepModel]

/-- Witness for C1 on a short sequence crossing a flush boundary: after
`insert([0],[1]); flush; remove([0]); insert([2],[3])` the engine's `find`
agrees with last-write-wins at key `[0]` (the tombstone shadows the flushed
value). -/
theorem engine_find_eq_lastWrite_witness :
    (execOps [EOp.ins [0] [1], EOp.flush, EOp.rem [0], EOp.ins [2] [3]]).droppedShadowedTomb
      = false ∧
    (execOps [EOp.ins [0] [1], EOp.flush, EOp.rem [0], EOp.ins [2] [3]]).find [0]
      = lastWrite [EOp.ins [0] [1], EOp.flush, EOp.rem [0], EOp.ins [2] [3]] [0] :=
  ⟨by decide, engine_find_eq_lastWrite _ (by decide) [0]⟩
